import Mathlib

/-!
# ARver — verification of the core algorithms

Shallow embedding of the ARver repository's core components (disc
fingerprinting, AccurateRip response decoding, checksum lookup tables,
disc classification, rip verification, offset detection) together with
theorems settling the specification claims about them.

Python dicts are modelled as insertion-ordered association lists,
bytes as lists of naturals below 256, machine integers as `Nat`/`Int`
with explicit reduction modulo 2^32, and functions that can raise as
`Option`/`Except`.
-/

set_option autoImplicit false

namespace ARver

/-! ## Association lists (Python `dict` model)

Python dictionaries preserve insertion order; assigning to an existing
key overwrites the value in place, assigning to a fresh key appends.
`alSet`/`alGet` model `d[k] = v` and `d[k]` (`alGet k l = none` models
a `KeyError`). -/

def alSet {α β : Type} [DecidableEq α] (k : α) (v : β) : List (α × β) → List (α × β)
  | [] => [(k, v)]
  | (k', v') :: t => if k' = k then (k, v) :: t else (k', v') :: alSet k v t

def alGet {α β : Type} [DecidableEq α] (k : α) : List (α × β) → Option β
  | [] => none
  | (k', v') :: t => if k' = k then some v' else alGet k t

/-- The keys of an association list, in order. -/
def alKeys {α β : Type} (l : List (α × β)) : List α :=
  l.map Prod.fst

@[simp] theorem alKeys_nil {α β : Type} : alKeys ([] : List (α × β)) = [] := rfl

@[simp] theorem alKeys_cons {α β : Type} (p : α × β) (l : List (α × β)) :
    alKeys (p :: l) = p.1 :: alKeys l := rfl

theorem alKeys_alSet {α β : Type} [DecidableEq α] (k : α) (v : β) (l : List (α × β)) :
    alKeys (alSet k v l) = if k ∈ alKeys l then alKeys l else alKeys l ++ [k] := by
  induction l with
  | nil => simp [alSet]
  | cons p t ih =>
    obtain ⟨k', v'⟩ := p
    by_cases h : k' = k
    · subst h
      simp [alSet]
    · simp only [alSet, if_neg h, alKeys_cons, ih]
      have hne : ¬ k = k' := fun hc => h hc.symm
      by_cases hm : k ∈ alKeys t <;> simp [List.mem_cons, hne, hm]

theorem alSet_fresh {α β : Type} [DecidableEq α] (k : α) (v : β) (l : List (α × β))
    (h : k ∉ alKeys l) : alSet k v l = l ++ [(k, v)] := by
  induction l with
  | nil => rfl
  | cons p t ih =>
    obtain ⟨k', v'⟩ := p
    simp only [alKeys_cons, List.mem_cons] at h
    push_neg at h
    have hne : ¬ k' = k := fun hc => h.1 hc.symm
    simp [alSet, hne, ih h.2]

theorem alGet_alSet_self {α β : Type} [DecidableEq α] (k : α) (v : β) (l : List (α × β)) :
    alGet k (alSet k v l) = some v := by
  induction l with
  | nil => simp [alSet, alGet]
  | cons p t ih =>
    obtain ⟨k', v'⟩ := p
    by_cases h : k' = k
    · simp [alSet, alGet, h]
    · simp [alSet, alGet, h, ih]

theorem alGet_alSet_ne {α β : Type} [DecidableEq α] (k k' : α) (v : β) (l : List (α × β))
    (h : k' ≠ k) : alGet k' (alSet k v l) = alGet k' l := by
  induction l with
  | nil => simp [alSet, alGet, Ne.symm h]
  | cons p t ih =>
    obtain ⟨q, w⟩ := p
    by_cases hq : q = k
    · subst hq
      simp [alSet, alGet, Ne.symm h]
    · simp [alSet, alGet, hq, ih]

theorem alGet_isSome_iff_mem {α β : Type} [DecidableEq α] (k : α) (l : List (α × β)) :
    (alGet k l).isSome = true ↔ k ∈ alKeys l := by
  induction l with
  | nil => simp [alGet]
  | cons p t ih =>
    obtain ⟨k', v'⟩ := p
    by_cases h : k' = k
    · simp [alGet, h]
    · have hne : ¬ k = k' := fun hc => h hc.symm
      simp [alGet, h, ih, hne]

/-! ## Hexadecimal formatting

Model of the Python format specifier `f'{n:08x}'`: lowercase hex digits
padded with zeros to (at least) eight characters. -/

/-- A single lowercase hexadecimal digit (`'0'`–`'9'`, `'a'`–`'f'`). -/
def hexChar (n : Nat) : Char :=
  if n < 10 then Char.ofNat (48 + n) else Char.ofNat (87 + n)

/-- Hexadecimal digit expansion with fuel (each division by 16 strictly
decreases a positive argument, so fuel `n` always suffices for `n`). -/
def hexDigitsGo : Nat → Nat → List Char
  | _, 0 => []
  | 0, _ + 1 => []
  | fuel + 1, n + 1 => hexDigitsGo fuel ((n + 1) / 16) ++ [hexChar ((n + 1) % 16)]

/-- Hexadecimal digit expansion, most significant digit first (empty for 0). -/
def hexDigits (n : Nat) : List Char :=
  hexDigitsGo n n

theorem hexDigitsGo_fuel (f1 : Nat) : ∀ (f2 n : Nat), n ≤ f1 → n ≤ f2 →
    hexDigitsGo f1 n = hexDigitsGo f2 n := by
  induction f1 with
  | zero =>
    intro f2 n h1 _
    interval_cases n
    cases f2 <;> rfl
  | succ f1 ih =>
    intro f2 n h1 h2
    match n, f2 with
    | 0, f2 => cases f2 <;> rfl
    | n + 1, f2 + 1 =>
      show hexDigitsGo f1 ((n + 1) / 16) ++ _ = hexDigitsGo f2 ((n + 1) / 16) ++ _
      rw [ih f2 ((n + 1) / 16) (by omega) (by omega)]

/-- The defining recurrence of `hexDigits`. -/
theorem hexDigits_eq (n : Nat) :
    hexDigits n = if n = 0 then [] else hexDigits (n / 16) ++ [hexChar (n % 16)] := by
  match n with
  | 0 => rfl
  | n + 1 =>
    show hexDigitsGo (n + 1) (n + 1) = _
    rw [if_neg (by omega)]
    show hexDigitsGo n ((n + 1) / 16) ++ _ = hexDigitsGo ((n + 1) / 16) ((n + 1) / 16) ++ _
    rw [hexDigitsGo_fuel n ((n + 1) / 16) ((n + 1) / 16) (by omega) (le_refl _)]

/-- Model of the Python format `f'{n:08x}'`. -/
def toHex8 (n : Nat) : String :=
  String.mk (List.replicate (8 - (hexDigits n).length) '0' ++ hexDigits n)

theorem hexDigits_length_le (k : Nat) : ∀ n : Nat, n < 16 ^ k → (hexDigits n).length ≤ k := by
  induction k with
  | zero =>
    intro n hn
    interval_cases n
    simp [hexDigits, hexDigitsGo]
  | succ k ih =>
    intro n hn
    by_cases h : n = 0
    · simp [hexDigits, h, hexDigitsGo]
    · rw [hexDigits_eq, if_neg h]
      have hdiv : n / 16 < 16 ^ k := by
        rw [Nat.div_lt_iff_lt_mul (by omega)]
        calc n < 16 ^ (k + 1) := hn
        _ = 16 ^ k * 16 := by ring
      have := ih (n / 16) hdiv
      simp only [List.length_append, List.length_singleton]
      omega

theorem toHex8_length (n : Nat) (h : n < 4294967296) : (toHex8 n).length = 8 := by
  have h16 : n < 16 ^ 8 := by norm_num at h ⊢; omega
  have := hexDigits_length_le 8 n h16
  simp only [toHex8, String.length_mk, List.length_append, List.length_replicate]
  omega

/-! ## FingerprintCalculator (`arver/disc/fingerprint.py`)

`accuraterip_ids` computes the pair of AccurateRip disc IDs from the
LBA offsets of the audio tracks and the lead-out LBA.  Track offsets
and the lead-out are first converted to LSN by subtracting the 150
sector lead-in, then the two IDs are accumulated in one loop over the
1-based enumeration of the LSN offsets, reduced modulo 2^32 and
formatted as 8-digit lowercase hex. -/

def LEAD_IN_FRAMES : Int := 150

def accuraterip_ids (audio_offsets : List Int) (leadout : Int) : String × String :=
  let lsn_offsets := audio_offsets.map (fun offset => offset - LEAD_IN_FRAMES)
  let lsn_leadout := leadout - LEAD_IN_FRAMES
  let ids := (List.enumFrom 1 lsn_offsets).foldl
      (fun (ids : Int × Int) (p : Nat × Int) =>
        (ids.1 + p.2, ids.2 + (if p.2 = 0 then 1 else p.2) * (p.1 : Int)))
      (0, 0)
  let id1 := (ids.1 + lsn_leadout).emod 4294967296
  let id2 := (ids.2 + lsn_leadout * ((lsn_offsets.length : Int) + 1)).emod 4294967296
  (toHex8 id1.toNat, toHex8 id2.toNat)

/-- The closed-form value of `id1` stated by the spec: sum of all
LSN offsets plus the LSN lead-out, modulo 2^32 (no zero-to-one rule). -/
def id1_formula (offsets : List Int) (leadout : Int) : Int :=
  ((offsets.map (fun o => o - 150)).sum + (leadout - 150)).emod 4294967296

/-- The closed-form value of `id2` stated by the spec: sum over 1-based
indices `i` of `(LSN offset or 1) * i`, plus `LSN leadout * (n + 1)`,
modulo 2^32. -/
def id2_formula (offsets : List Int) (leadout : Int) : Int :=
  (((List.enumFrom 1 (offsets.map (fun o => o - 150))).map
      (fun p => (if p.2 = 0 then 1 else p.2) * (p.1 : Int))).sum
    + (leadout - 150) * ((offsets.length : Int) + 1)).emod 4294967296

theorem fingerprint_foldl_eq (l : List Int) (n : Nat) (a b : Int) :
    (List.enumFrom n l).foldl
      (fun (ids : Int × Int) (p : Nat × Int) =>
        (ids.1 + p.2, ids.2 + (if p.2 = 0 then 1 else p.2) * (p.1 : Int)))
      (a, b)
    = (a + l.sum,
       b + ((List.enumFrom n l).map
         (fun p => (if p.2 = 0 then 1 else p.2) * (p.1 : Int))).sum) := by
  induction l generalizing n a b with
  | nil => simp
  | cons x xs ih =>
    simp only [List.enumFrom, List.foldl_cons, List.map_cons, List.sum_cons]
    rw [ih]
    simp only [Prod.mk.injEq]
    constructor <;> ring

theorem accuraterip_ids_eq (offsets : List Int) (leadout : Int) :
    accuraterip_ids offsets leadout
      = (toHex8 (id1_formula offsets leadout).toNat,
         toHex8 (id2_formula offsets leadout).toNat) := by
  unfold accuraterip_ids
  simp only [fingerprint_foldl_eq]
  simp [id1_formula, id2_formula, LEAD_IN_FRAMES]

theorem emod_toNat_lt (x : Int) : (x.emod 4294967296).toNat < 4294967296 := by
  have h1 : 0 ≤ x.emod 4294967296 := Int.emod_nonneg x (by norm_num)
  have h2 : x.emod 4294967296 < 4294967296 := Int.emod_lt_of_pos x (by norm_num)
  omega

/-- Claim C2: for every non-empty list of audio-track LBA offsets and lead-out
LBA, `accuraterip_ids` returns exactly the spec's two closed-form sums
(`id1` without the zero-to-one rule, `id2` with it), each reduced modulo
2^32 and formatted as a lowercase 8-digit hex string; on the single-track
disc `offsets = [150]`, `leadout = 279187` the result is
`(0x000441fd, 0x000883fb)`. -/
theorem C2_accuraterip_ids (offsets : List Int) (leadout : Int) (h : offsets ≠ []) :
    accuraterip_ids offsets leadout
      = (toHex8 (id1_formula offsets leadout).toNat,
         toHex8 (id2_formula offsets leadout).toNat)
    ∧ (accuraterip_ids offsets leadout).1.length = 8
    ∧ (accuraterip_ids offsets leadout).2.length = 8
    ∧ accuraterip_ids [150] 279187 = ("000441fd", "000883fb") := by
  refine ⟨accuraterip_ids_eq offsets leadout, ?_, ?_, ?_⟩
  · rw [accuraterip_ids_eq]
    exact toHex8_length _ (emod_toNat_lt _)
  · rw [accuraterip_ids_eq]
    exact toHex8_length _ (emod_toNat_lt _)
  · rw [accuraterip_ids_eq]
    have h1 : id1_formula [150] 279187 = 279037 := by
      simp only [id1_formula]
      decide
    have h2 : id2_formula [150] 279187 = 558075 := by
      simp only [id2_formula]
      decide
    rw [h1, h2]
    decide

/-- Witness for C2: instantiation of `C2_accuraterip_ids` on the concrete
single-track disc from the test fixtures. -/
theorem C2_accuraterip_ids_witness :
    accuraterip_ids [150] 279187
      = (toHex8 (id1_formula [150] 279187).toNat,
         toHex8 (id2_formula [150] 279187).toNat)
    ∧ (accuraterip_ids [150] 279187).1.length = 8
    ∧ (accuraterip_ids [150] 279187).2.length = 8
    ∧ accuraterip_ids [150] 279187 = ("000441fd", "000883fb") :=
  C2_accuraterip_ids [150] 279187 (by decide)

/-! ## DiscClassifier (`arver/disc/info.py`)

`_Track` mirrors the `_Track` dataclass (track number, starting LBA,
length in frames, track type as a string).  `_get_disc_type` classifies
the layout from the session count and the track type sequence, and
Enhanced discs get the inter-session gap subtracted from their last
audio track by `_fix_last_audio_track` (as done in `DiscInfo.from_cd`). -/

structure _Track where
  num : Int
  lba : Int
  frames : Int
  type : String
deriving DecidableEq, Repr, Inhabited

inductive DiscType where
  | UNSUPPORTED
  | AUDIO
  | MIXED_MODE
  | ENHANCED
  | DISC_ID
  | TRACKS
deriving DecidableEq, Repr

def ENHANCED_CD_DATA_TRACK_GAP : Int := 11400

/-- Source `_is_audio_only`: the set of track types is exactly `{'audio'}`. -/
def _is_audio_only (track_list : List _Track) : Prop :=
  track_list ≠ [] ∧ ∀ t ∈ track_list, t.type = "audio"

instance (track_list : List _Track) : Decidable (_is_audio_only track_list) := by
  unfold _is_audio_only
  infer_instance

def _get_disc_type (multisession : Bool) (track_list : List _Track) : DiscType :=
  if "audio" ∉ track_list.map (fun t => t.type) then DiscType.UNSUPPORTED
  else if ¬multisession ∧ _is_audio_only track_list then DiscType.AUDIO
  else if ¬multisession ∧ (track_list.head?.map (fun t => t.type) = some "data") then
    DiscType.MIXED_MODE
  else if multisession ∧ (track_list.getLast?.map (fun t => t.type) = some "data") then
    DiscType.ENHANCED
  else DiscType.UNSUPPORTED

/-- The body of the `_fix_last_audio_track` loop, which walks the track
list from the end and shortens the first audio track it meets. -/
def fixLastAudioAux : List _Track → List _Track
  | [] => []
  | t :: rest =>
    if t.type ≠ "audio" then t :: fixLastAudioAux rest
    else { t with frames := t.frames - ENHANCED_CD_DATA_TRACK_GAP } :: rest

def _fix_last_audio_track (track_list : List _Track) : List _Track :=
  (fixLastAudioAux track_list.reverse).reverse

/-- The classification part of `DiscInfo.from_cd`: reject unsupported
layouts, and apply the Enhanced-CD length fix exactly when the disc is
Enhanced. -/
def classify_disc (multisession : Bool) (track_list : List _Track) :
    Option (DiscType × List _Track) :=
  let disc_type := _get_disc_type multisession track_list
  if disc_type = DiscType.UNSUPPORTED then none
  else some (disc_type,
    if disc_type = DiscType.ENHANCED then _fix_last_audio_track track_list else track_list)

/-- A track with the inter-session gap subtracted from its length. -/
def gapReduced (t : _Track) : _Track :=
  { t with frames := t.frames - ENHANCED_CD_DATA_TRACK_GAP }

theorem fix_last_concat (ts : List _Track) (t : _Track) :
    _fix_last_audio_track (ts ++ [t])
      = if t.type = "audio" then ts ++ [gapReduced t]
        else _fix_last_audio_track ts ++ [t] := by
  by_cases h : t.type = "audio" <;>
    simp [_fix_last_audio_track, fixLastAudioAux, gapReduced, h]

/-- Function `_fix_last_audio_track` rewrites exactly the last audio track,
subtracting 11400 frames, and leaves every other track unchanged. -/
theorem fix_last_spec (ts : List _Track) (h : ∃ t ∈ ts, t.type = "audio") :
    ∃ j, j < ts.length
      ∧ (ts.getD j default).type = "audio"
      ∧ (∀ i, j < i → i < ts.length → (ts.getD i default).type ≠ "audio")
      ∧ _fix_last_audio_track ts = ts.set j (gapReduced (ts.getD j default)) := by
  induction ts using List.reverseRecOn with
  | nil => simp at h
  | append_singleton ts t ih =>
    by_cases ht : t.type = "audio"
    · refine ⟨ts.length, by simp, ?_, ?_, ?_⟩
      · simp [List.getD_append_right, ht]
      · intro i hi hi'
        simp at hi'
        omega
      · have hget : (ts ++ [t]).getD ts.length default = t := by
          rw [List.getD_append_right _ _ _ _ (le_refl _)]
          simp
        rw [hget, fix_last_concat, if_pos ht, List.set_append_right _ _ (le_refl _)]
        simp
    · have h' : ∃ u ∈ ts, u.type = "audio" := by
        obtain ⟨u, hu, hau⟩ := h
        rcases List.mem_append.mp hu with h1 | h2
        · exact ⟨u, h1, hau⟩
        · simp at h2
          subst h2
          exact absurd hau ht
      obtain ⟨j, hj, hja, hjlast, hjeq⟩ := ih h'
      refine ⟨j, by simp; omega, ?_, ?_, ?_⟩
      · rwa [List.getD_append _ _ _ _ hj]
      · intro i hi hi'
        simp at hi'
        by_cases hlt : i < ts.length
        · rw [List.getD_append _ _ _ _ hlt]
          exact hjlast i hi hlt
        · have : i = ts.length := by omega
          subst this
          rw [List.getD_append_right _ _ _ _ (le_refl _)]
          simpa using ht
      · rw [fix_last_concat, if_neg ht, hjeq, List.getD_append _ _ _ _ hj,
            List.set_append_left _ _ hj]

/-- Claim C6: `_get_disc_type` implements exactly the five ordered rules
(no audio → Unsupported; single session, all audio → Audio; single
session, data first → MixedMode; multisession, data last → Enhanced;
otherwise Unsupported), and `classify_disc` reduces the length of the
last audio track by exactly 11400 frames for Enhanced discs — leaving
all other tracks unchanged — and only for Enhanced discs. -/
theorem C6_disc_classifier (multisession : Bool) (ts : List _Track) :
    (("audio" ∉ ts.map (fun t => t.type)) →
      _get_disc_type multisession ts = DiscType.UNSUPPORTED)
    ∧ ("audio" ∈ ts.map (fun t => t.type) → ¬multisession →
        (∀ t ∈ ts, t.type = "audio") →
        _get_disc_type multisession ts = DiscType.AUDIO)
    ∧ ("audio" ∈ ts.map (fun t => t.type) → ¬multisession →
        ts.head?.map (fun t => t.type) = some "data" →
        _get_disc_type multisession ts = DiscType.MIXED_MODE)
    ∧ ("audio" ∈ ts.map (fun t => t.type) → multisession →
        ts.getLast?.map (fun t => t.type) = some "data" →
        _get_disc_type multisession ts = DiscType.ENHANCED)
    ∧ ("audio" ∈ ts.map (fun t => t.type) →
        ¬(¬multisession ∧ _is_audio_only ts) →
        ¬(¬multisession ∧ ts.head?.map (fun t => t.type) = some "data") →
        ¬(multisession ∧ ts.getLast?.map (fun t => t.type) = some "data") →
        _get_disc_type multisession ts = DiscType.UNSUPPORTED)
    ∧ (∀ ts', classify_disc multisession ts = some (DiscType.ENHANCED, ts') →
        ∃ j, j < ts.length
          ∧ (ts.getD j default).type = "audio"
          ∧ (∀ i, j < i → i < ts.length → (ts.getD i default).type ≠ "audio")
          ∧ ts' = ts.set j (gapReduced (ts.getD j default)))
    ∧ (∀ dt ts', classify_disc multisession ts = some (dt, ts') →
        dt ≠ DiscType.ENHANCED → ts' = ts) := by
  have haudio_mem : "audio" ∈ ts.map (fun t => t.type) →
      ∃ t ∈ ts, t.type = "audio" := by
    intro hm
    obtain ⟨t, ht, hty⟩ := List.mem_map.mp hm
    exact ⟨t, ht, hty⟩
  refine ⟨?_, ?_, ?_, ?_, ?_, ?_, ?_⟩
  · intro hno
    simp [_get_disc_type, hno]
  · intro hm hms hall
    have hne : ts ≠ [] := by
      rintro rfl
      simp at hm
    unfold _get_disc_type
    rw [if_neg (fun hc => hc hm), if_pos ⟨hms, hne, hall⟩]
  · intro hm hms hfirst
    have hnotall : ¬(¬multisession = true ∧ _is_audio_only ts) := by
      rintro ⟨-, hne, hall⟩
      cases ts with
      | nil => exact hne rfl
      | cons t rest =>
        simp only [List.head?_cons, Option.map_some'] at hfirst
        rw [hall t (List.mem_cons_self t rest)] at hfirst
        exact absurd hfirst (by decide)
    unfold _get_disc_type
    rw [if_neg (fun hc => hc hm), if_neg hnotall, if_pos ⟨hms, hfirst⟩]
  · intro hm hms hlast
    unfold _get_disc_type
    rw [if_neg (fun hc => hc hm),
        if_neg (fun hc => hc.1 hms),
        if_neg (fun hc => hc.1 hms),
        if_pos ⟨hms, hlast⟩]
  · intro hm h2 h3 h4
    unfold _get_disc_type
    rw [if_neg (fun hc => hc hm), if_neg h2, if_neg h3, if_neg h4]
  · intro ts' hcl
    simp only [classify_disc] at hcl
    split at hcl
    · exact absurd hcl (by simp)
    · rename_i hne
      have hdt : _get_disc_type multisession ts = DiscType.ENHANCED := by
        by_cases hdt : _get_disc_type multisession ts = DiscType.ENHANCED
        · exact hdt
        · rw [if_neg hdt] at hcl
          simp at hcl
          exact absurd hcl.1 hdt
      rw [if_pos hdt] at hcl
      simp at hcl
      have hm : "audio" ∈ ts.map (fun t => t.type) := by
        by_contra hno
        simp [_get_disc_type, hno] at hdt
      obtain ⟨j, hj, hja, hjl, hje⟩ := fix_last_spec ts (haudio_mem hm)
      exact ⟨j, hj, hja, hjl, by rw [← hcl.2, hje]⟩
  · intro dt ts' hcl hne
    simp only [classify_disc] at hcl
    split at hcl
    · exact absurd hcl (by simp)
    · simp at hcl
      obtain ⟨hdt, hts⟩ := hcl
      rw [← hts, if_neg (by rw [hdt]; exact hne)]

/-- Witness for C6: the classifier and the Enhanced-CD gap fix evaluated
on a concrete two-session disc with one audio and one data track. -/
theorem C6_disc_classifier_witness :
    _get_disc_type true [⟨1, 150, 20000, "audio"⟩, ⟨2, 32000, 5000, "data"⟩]
      = DiscType.ENHANCED
    ∧ classify_disc true [⟨1, 150, 20000, "audio"⟩, ⟨2, 32000, 5000, "data"⟩]
      = some (DiscType.ENHANCED, [⟨1, 150, 8600, "audio"⟩, ⟨2, 32000, 5000, "data"⟩]) := by
  have h := C6_disc_classifier true [⟨1, 150, 20000, "audio"⟩, ⟨2, 32000, 5000, "data"⟩]
  refine ⟨h.2.2.2.1 (by decide) (by decide) (by decide), ?_⟩
  decide

/-! ## HTOA discarding (`Rip._discard_htoa`, `arver/rip/rip.py`)

`Rip.__init__` filters the path list through `_discard_htoa` before
building audio tracks.  With no explicit exclude patterns a fixed list
of four HTOA file names is used; with explicit patterns, the basenames
of all paths matching any pattern are collected and every path whose
basename is in that collection is dropped. -/

/-- Model of `os.path.basename` for POSIX paths: the part after the last `'/'`. -/
def basename (path : String) : String :=
  String.mk (path.data.foldl (fun acc c => if c = '/' then [] else acc ++ [c]) [])

/-- Bounded-fuel glob matcher: `*` matches any sequence, `?` any single
character, anything else itself.  This models `fnmatch.fnmatch` on the
pattern fragment ARver uses (no bracket classes, POSIX case rules).
Each step shrinks `pattern.length + name.length`, so the fuel chosen by
`fnmatch` is always sufficient. -/
def globMatch : Nat → List Char → List Char → Bool
  | 0, _, _ => false
  | _ + 1, [], s => s.isEmpty
  | fuel + 1, '*' :: ps, s =>
      globMatch fuel ps s ||
        (match s with
         | [] => false
         | _ :: ss => globMatch fuel ('*' :: ps) ss)
  | _ + 1, _ :: _, [] => false
  | fuel + 1, p :: ps, c :: ss => (p == '?' || p == c) && globMatch fuel ps ss

/-- Model of `fnmatch.fnmatch(name, pattern)`. -/
def fnmatch (name pattern : String) : Bool :=
  globMatch (pattern.length + name.length + 1) pattern.data name.data

def HTOA_PATTERNS : List String :=
  ["track00.wav", "track00.cdda.wav", "track00.flac", "track00.cdda.flac"]

def _discard_htoa (paths : List String) (exclude : Option (List String)) : List String :=
  let htoa_patterns :=
    match exclude with
    | none => HTOA_PATTERNS
    | some patterns =>
        patterns.foldl
          (fun acc pattern =>
            acc ++ (paths.filter (fun path => fnmatch path pattern)).map basename)
          []
  paths.filter (fun path => decide (basename path ∉ htoa_patterns))

theorem foldl_append_mem {α β : Type} (f : α → List β) (pats : List α) (init : List β) (x : β) :
    x ∈ pats.foldl (fun acc pattern => acc ++ f pattern) init
      ↔ x ∈ init ∨ ∃ pat ∈ pats, x ∈ f pat := by
  induction pats generalizing init with
  | nil => simp
  | cons p ps ih =>
    simp only [List.foldl_cons, ih, List.mem_append, List.mem_cons]
    constructor
    · rintro (⟨h | h⟩ | ⟨pat, hpat, hx⟩)
      · exact Or.inl h
      · exact Or.inr ⟨p, Or.inl rfl, h⟩
      · exact Or.inr ⟨pat, Or.inr hpat, hx⟩
    · rintro (h | ⟨pat, rfl | hpat, hx⟩)
      · exact Or.inl (Or.inl h)
      · exact Or.inl (Or.inr hx)
      · exact Or.inr ⟨pat, hpat, hx⟩

/-- Claim C10, amended: with no explicit exclude patterns, `_discard_htoa`
removes exactly the paths whose basename is one of the four default HTOA
names; with explicit patterns the default names are ignored, and exactly
those paths are removed whose basename equals the basename of some path
in the list matching one of the given patterns (so a path matching no
pattern is still removed when it shares its basename with a matching
path). -/
theorem C10_discard_htoa (paths : List String) :
    (∀ p, p ∈ _discard_htoa paths none ↔ p ∈ paths ∧ basename p ∉ HTOA_PATTERNS)
    ∧ (∀ pats p, p ∈ _discard_htoa paths (some pats) ↔
        p ∈ paths ∧
          ¬∃ q ∈ paths, (∃ pat ∈ pats, fnmatch q pat = true) ∧ basename q = basename p) := by
  constructor
  · intro p
    simp [_discard_htoa, List.mem_filter]
  · intro pats p
    simp only [_discard_htoa, List.mem_filter, decide_eq_true_eq]
    constructor
    · rintro ⟨hp, hnot⟩
      refine ⟨hp, ?_⟩
      rintro ⟨q, hq, ⟨pat, hpat, hmatch⟩, hbase⟩
      exact hnot ((foldl_append_mem _ pats [] (basename p)).mpr
        (Or.inr ⟨pat, hpat, List.mem_map.mpr ⟨q, List.mem_filter.mpr ⟨hq, hmatch⟩, hbase⟩⟩))
    · rintro ⟨hp, hnot⟩
      refine ⟨hp, ?_⟩
      intro hmem
      rcases (foldl_append_mem _ pats [] (basename p)).mp hmem with h | ⟨pat, hpat, hmem'⟩
      · simp at h
      · obtain ⟨q, hq, hbase⟩ := List.mem_map.mp hmem'
        rw [List.mem_filter] at hq
        exact hnot ⟨q, hq.1, ⟨pat, hpat, hq.2⟩, hbase⟩

/-- Counterexample for C10: with explicit exclude pattern `"x/t.wav"`,
the path `"y/t.wav"` matches no given pattern, yet it is removed from
the rip because it shares its basename with the matching path
`"x/t.wav"` — refuting "only paths matching the given patterns are
removed". -/
theorem C10_counterexample :
    fnmatch "y/t.wav" "x/t.wav" = false
    ∧ "y/t.wav" ∈ ["x/t.wav", "y/t.wav"]
    ∧ "y/t.wav" ∉ _discard_htoa ["x/t.wav", "y/t.wav"] (some ["x/t.wav"]) := by
  decide

/-- Witness for C10: `C10_discard_htoa` applied to a concrete path list:
the default patterns drop `track00.wav` but keep `track01.wav`. -/
theorem C10_discard_htoa_witness :
    ("rip/track01.wav" ∈ _discard_htoa ["rip/track00.wav", "rip/track01.wav"] none
      ↔ "rip/track01.wav" ∈ ["rip/track00.wav", "rip/track01.wav"]
        ∧ basename "rip/track01.wav" ∉ HTOA_PATTERNS) :=
  (C10_discard_htoa ["rip/track00.wav", "rip/track01.wav"]).1 "rip/track01.wav"

/-! ## AccurateRip database (`arver/disc/database.py`)

Binary layout: a Response is a 13-byte Header (`u8` track count, three
little-endian `u32` disc IDs) followed by `num_tracks` 9-byte Track
records (`u8` confidence, two little-endian `u32` checksums); several
Responses are concatenated with no delimiter.  `_parse_raw_bytes`
consumes the whole buffer; a failing `struct.unpack` (too few bytes) is
the `truncated` error, a failing `_validate_header` the
`headerMismatch` error, and either discards everything parsed so far. -/

structure Header where
  num_tracks : Nat
  ar_id1 : Nat
  ar_id2 : Nat
  freedb_id : Nat
deriving DecidableEq, Repr, Inhabited

/-- The `Track` dataclass of `database.py` (named `ARTrack` here because
`_Track` is the TOC track type of `info.py`). -/
structure ARTrack where
  confidence : Nat
  checksum : Nat
  checksum_450 : Nat
deriving DecidableEq, Repr, Inhabited

structure Response where
  header : Header
  tracks : List ARTrack
deriving DecidableEq, Repr, Inhabited

structure AccurateRipDisc where
  responses : List Response
deriving DecidableEq, Repr, Inhabited

/-- The disc identity stored in an `AccurateRipFetcher`: the expected
track count and the three disc IDs as 8-digit hex strings. -/
structure FetcherId where
  num_tracks : Nat
  ar_id1 : String
  ar_id2 : String
  freedb_id : String
deriving DecidableEq, Repr

/-- A little-endian 32-bit value from four bytes. -/
def u32le (a b c d : Nat) : Nat := a + 256 * (b + 256 * (c + 256 * d))

/-- Source `Header.from_bytes`: `struct.unpack('<BLLL', data[:13])`, failing
(`none`) when fewer than 13 bytes remain. -/
def headerFromBytes : List Nat → Option Header
  | n :: a :: b :: c :: d :: e :: f :: g :: h :: i :: j :: k :: l :: _ =>
    some ⟨n, u32le a b c d, u32le e f g h, u32le i j k l⟩
  | _ => none

/-- Source `Track.from_bytes`: `struct.unpack('<BLL', data[:9])`, failing
(`none`) when fewer than 9 bytes remain. -/
def trackFromBytes : List Nat → Option ARTrack
  | n :: a :: b :: c :: d :: e :: f :: g :: h :: _ =>
    some ⟨n, u32le a b c d, u32le e f g h⟩
  | _ => none

/-- Source `AccurateRipFetcher._validate_header`: the header matches the
fetcher's disc exactly (track count and all three IDs rendered as
8-digit lowercase hex). -/
def _validate_header (fid : FetcherId) (h : Header) : Bool :=
  decide (h.num_tracks = fid.num_tracks
    ∧ toHex8 h.ar_id1 = fid.ar_id1
    ∧ toHex8 h.ar_id2 = fid.ar_id2
    ∧ toHex8 h.freedb_id = fid.freedb_id)

inductive DecodeError where
  | headerMismatch
  | truncated
deriving DecidableEq, Repr

/-- Steps 4 of `_parse_raw_bytes`: consume `n` consecutive 9-byte Track
records, returning them with the remaining bytes. -/
def parseTracks : Nat → List Nat → Except DecodeError (List ARTrack × List Nat)
  | 0, data => .ok ([], data)
  | n + 1, data =>
    match trackFromBytes data with
    | none => .error .truncated
    | some t =>
      match parseTracks n (data.drop 9) with
      | .error e => .error e
      | .ok (ts, rest) => .ok (t :: ts, rest)

/-- The `while len(raw_bytes) > 0` loop of `_parse_raw_bytes`, with an
explicit fuel argument to keep the definition structurally recursive.
Every iteration consumes at least the 13 header bytes, so any fuel of
at least `raw.length` gives the loop's exact behaviour
(`parseGo_fuel`); the fuel-exhausted branch is never reached then. -/
def parseGo (fid : FetcherId) : Nat → List Nat → Except DecodeError (List Response)
  | _, [] => .ok []
  | 0, _ :: _ => .error .truncated
  | fuel + 1, b :: rest =>
    match headerFromBytes (b :: rest) with
    | none => .error .truncated
    | some header =>
      if _validate_header fid header then
        match parseTracks header.num_tracks ((b :: rest).drop 13) with
        | .error e => .error e
        | .ok (tracks, remaining) =>
          match parseGo fid fuel remaining with
          | .error e => .error e
          | .ok responses => .ok (⟨header, tracks⟩ :: responses)
      else .error .headerMismatch

/-- Source `AccurateRipFetcher._parse_raw_bytes`: decode the whole buffer into
an `AccurateRipDisc`, or fail with the first error — in which case all
responses parsed so far are discarded. -/
def _parse_raw_bytes (fid : FetcherId) (raw : List Nat) : Except DecodeError AccurateRipDisc :=
  (parseGo fid raw.length raw).map AccurateRipDisc.mk

/-! ### Decoder lemmas and the byte-level encoders -/

theorem headerFromBytes_short (l : List Nat) (h : l.length < 13) :
    headerFromBytes l = none := by
  rcases l with _ | ⟨a1, _ | ⟨a2, _ | ⟨a3, _ | ⟨a4, _ | ⟨a5, _ | ⟨a6, _ | ⟨a7, _ | ⟨a8,
    _ | ⟨a9, _ | ⟨a10, _ | ⟨a11, _ | ⟨a12, _ | ⟨a13, rest⟩⟩⟩⟩⟩⟩⟩⟩⟩⟩⟩⟩⟩ <;>
    first
      | rfl
      | (simp only [List.length_cons] at h; omega)

theorem trackFromBytes_short (l : List Nat) (h : l.length < 9) :
    trackFromBytes l = none := by
  rcases l with _ | ⟨a1, _ | ⟨a2, _ | ⟨a3, _ | ⟨a4, _ | ⟨a5, _ | ⟨a6, _ | ⟨a7, _ | ⟨a8,
    _ | ⟨a9, rest⟩⟩⟩⟩⟩⟩⟩⟩⟩ <;>
    first
      | rfl
      | (simp only [List.length_cons] at h; omega)

theorem parseTracks_ok (n : Nat) : ∀ (data : List Nat) (ts : List ARTrack) (rest : List Nat),
    parseTracks n data = .ok (ts, rest) →
    ts.length = n ∧ rest.length + 9 * n = data.length := by
  induction n with
  | zero =>
    intro data ts rest h
    simp [parseTracks] at h
    obtain ⟨rfl, rfl⟩ := h
    simp
  | succ n ih =>
    intro data ts rest h
    simp only [parseTracks] at h
    cases htr : trackFromBytes data with
    | none => rw [htr] at h; exact absurd h (by simp)
    | some t =>
      rw [htr] at h
      cases hts : parseTracks n (data.drop 9) with
      | error e => rw [hts] at h; exact absurd h (by simp)
      | ok p =>
        obtain ⟨ts', rest'⟩ := p
        rw [hts] at h
        simp only [Except.ok.injEq, Prod.mk.injEq] at h
        obtain ⟨h1, h2⟩ := h
        subst h1
        subst h2
        obtain ⟨hl, hr⟩ := ih (data.drop 9) ts' rest' hts
        have hlen : 9 ≤ data.length := by
          by_contra hc
          rw [trackFromBytes_short data (by omega)] at htr
          exact absurd htr (by simp)
        simp only [List.length_drop] at hr
        exact ⟨by simp [hl], by omega⟩

theorem parseTracks_short (n : Nat) : ∀ data : List Nat, data.length < 9 * n →
    parseTracks n data = .error .truncated := by
  induction n with
  | zero => intro data h; omega
  | succ n ih =>
    intro data h
    simp only [parseTracks]
    cases htr : trackFromBytes data with
    | none => rfl
    | some t =>
      have hlen : 9 ≤ data.length := by
        by_contra hc
        rw [trackFromBytes_short data (by omega)] at htr
        exact absurd htr (by simp)
      rw [ih (data.drop 9) (by simp [List.length_drop]; omega)]

/-- The fuel passed to `parseGo` is irrelevant as long as it is at least
the buffer length: each iteration consumes at least 13 bytes. -/
theorem parseGo_fuel (fid : FetcherId) (f1 : Nat) :
    ∀ (f2 : Nat) (raw : List Nat), raw.length ≤ f1 → raw.length ≤ f2 →
    parseGo fid f1 raw = parseGo fid f2 raw := by
  induction f1 with
  | zero =>
    intro f2 raw h1 _
    have : raw = [] := List.eq_nil_of_length_eq_zero (by omega)
    subst this
    cases f2 <;> rfl
  | succ f1 ih =>
    intro f2 raw h1 h2
    match raw, f2 with
    | [], f2 => cases f2 <;> rfl
    | b :: rest, f2 + 1 =>
      simp only [parseGo]
      cases hh : headerFromBytes (b :: rest) with
      | none => rfl
      | some header =>
        have h13 : 13 ≤ (b :: rest).length := by
          by_contra hc
          rw [headerFromBytes_short _ (by omega)] at hh
          exact absurd hh (by simp)
        dsimp only
        by_cases hv : _validate_header fid header = true
        · rw [if_pos hv, if_pos hv]
          cases hts : parseTracks header.num_tracks ((b :: rest).drop 13) with
          | error e => rfl
          | ok p =>
            obtain ⟨tracks, remaining⟩ := p
            have hrem := (parseTracks_ok _ _ _ _ hts).2
            simp only [List.length_drop, List.length_cons] at hrem h13 h1 h2 ⊢
            rw [ih f2 remaining (by omega) (by omega)]
        · rw [if_neg hv, if_neg hv]

/-- The four bytes of a 32-bit value, little endian (`struct.pack('<L', n)`). -/
def u32bytes (n : Nat) : List Nat :=
  [n % 256, n / 256 % 256, n / 256 / 256 % 256, n / 256 / 256 / 256 % 256]

def encodeHeader (h : Header) : List Nat :=
  h.num_tracks :: (u32bytes h.ar_id1 ++ u32bytes h.ar_id2 ++ u32bytes h.freedb_id)

def encodeTrack (t : ARTrack) : List Nat :=
  t.confidence :: (u32bytes t.checksum ++ u32bytes t.checksum_450)

def encodeResponse (r : Response) : List Nat :=
  encodeHeader r.header ++ (r.tracks.map encodeTrack).flatten

def encodeResponses (rs : List Response) : List Nat :=
  (rs.map encodeResponse).flatten

/-- Field bounds making a header representable in the wire format. -/
def HeaderWF (h : Header) : Prop :=
  h.num_tracks < 256 ∧ h.ar_id1 < 4294967296
    ∧ h.ar_id2 < 4294967296 ∧ h.freedb_id < 4294967296

/-- Field bounds making a track record representable in the wire format. -/
def TrackWF (t : ARTrack) : Prop :=
  t.confidence < 256 ∧ t.checksum < 4294967296 ∧ t.checksum_450 < 4294967296

/-- A response that is representable, internally consistent and whose
header matches the fetcher's disc identity. -/
def ResponseWF (fid : FetcherId) (r : Response) : Prop :=
  HeaderWF r.header ∧ (∀ t ∈ r.tracks, TrackWF t)
    ∧ r.tracks.length = r.header.num_tracks
    ∧ _validate_header fid r.header = true

instance (h : Header) : Decidable (HeaderWF h) := by
  unfold HeaderWF
  infer_instance

instance (t : ARTrack) : Decidable (TrackWF t) := by
  unfold TrackWF
  infer_instance

instance (fid : FetcherId) (r : Response) : Decidable (ResponseWF fid r) := by
  unfold ResponseWF
  infer_instance

@[simp] theorem encodeHeader_length (h : Header) : (encodeHeader h).length = 13 := by
  simp [encodeHeader, u32bytes]

@[simp] theorem encodeTrack_length (t : ARTrack) : (encodeTrack t).length = 9 := by
  simp [encodeTrack, u32bytes]

theorem headerFromBytes_encode (h : Header) (hwf : HeaderWF h) (rest : List Nat) :
    headerFromBytes (encodeHeader h ++ rest) = some h := by
  obtain ⟨h1, h2, h3, h4⟩ := hwf
  obtain ⟨n, a1, a2, fd⟩ := h
  dsimp only at h1 h2 h3 h4
  simp only [encodeHeader, u32bytes, List.cons_append, List.append_assoc, List.nil_append,
    headerFromBytes, Option.some.injEq, Header.mk.injEq, u32le]
  refine ⟨trivial, ?_, ?_, ?_⟩ <;> omega

theorem trackFromBytes_encode (t : ARTrack) (hwf : TrackWF t) (rest : List Nat) :
    trackFromBytes (encodeTrack t ++ rest) = some t := by
  obtain ⟨h1, h2, h3⟩ := hwf
  obtain ⟨c, s1, s2⟩ := t
  dsimp only at h1 h2 h3
  simp only [encodeTrack, u32bytes, List.cons_append, List.append_assoc, List.nil_append,
    trackFromBytes, Option.some.injEq, ARTrack.mk.injEq, u32le]
  refine ⟨trivial, ?_, ?_⟩ <;> omega

theorem parseTracks_encode (ts : List ARTrack) :
    ∀ rest : List Nat, (∀ t ∈ ts, TrackWF t) →
    parseTracks ts.length ((ts.map encodeTrack).flatten ++ rest) = .ok (ts, rest) := by
  induction ts with
  | nil => intro rest _; simp [parseTracks]
  | cons t ts ih =>
    intro rest hwf
    simp only [List.map_cons, List.flatten_cons, List.length_cons, List.append_assoc]
    simp only [parseTracks]
    rw [trackFromBytes_encode t (hwf t (by simp)) _]
    have hdrop : (encodeTrack t ++ ((ts.map encodeTrack).flatten ++ rest)).drop 9
        = (ts.map encodeTrack).flatten ++ rest := by
      rw [← encodeTrack_length t, List.drop_left]
    rw [hdrop, ih rest (fun u hu => hwf u (by simp [hu]))]

@[simp] theorem encodeTracks_length (ts : List ARTrack) :
    ((ts.map encodeTrack).flatten).length = 9 * ts.length := by
  induction ts with
  | nil => simp
  | cons t ts ih => simp [ih]; ring

theorem parseGo_short (fid : FetcherId) (fuel : Nat) (junk : List Nat)
    (hne : junk ≠ []) (hlen : junk.length < 13) :
    parseGo fid fuel junk = .error .truncated := by
  match fuel, junk with
  | _, [] => exact absurd rfl hne
  | 0, b :: rest => rfl
  | fuel + 1, b :: rest =>
    simp only [parseGo, headerFromBytes_short _ hlen]

theorem parseGo_step_mismatch (fid : FetcherId) (fuel : Nat) (h : Header) (body : List Nat)
    (hwf : HeaderWF h) (hval : _validate_header fid h = false) :
    parseGo fid (fuel + 1) (encodeHeader h ++ body) = .error .headerMismatch := by
  have hcons : encodeHeader h ++ body
      = h.num_tracks
        :: ((u32bytes h.ar_id1 ++ u32bytes h.ar_id2 ++ u32bytes h.freedb_id) ++ body) := by
    simp [encodeHeader]
  rw [hcons]
  simp only [parseGo]
  rw [← hcons, headerFromBytes_encode h hwf body]
  simp [hval]

theorem parseGo_step_ok (fid : FetcherId) (fuel : Nat) (h : Header) (body : List Nat)
    (hwf : HeaderWF h) (hval : _validate_header fid h = true) :
    parseGo fid (fuel + 1) (encodeHeader h ++ body)
      = match parseTracks h.num_tracks body with
        | .error e => .error e
        | .ok (tracks, remaining) =>
          match parseGo fid fuel remaining with
          | .error e => .error e
          | .ok responses => .ok (⟨h, tracks⟩ :: responses) := by
  have hcons : encodeHeader h ++ body
      = h.num_tracks
        :: ((u32bytes h.ar_id1 ++ u32bytes h.ar_id2 ++ u32bytes h.freedb_id) ++ body) := by
    simp [encodeHeader]
  rw [hcons]
  simp only [parseGo]
  rw [← hcons, headerFromBytes_encode h hwf body]
  dsimp only
  rw [if_pos hval, List.drop_left' (encodeHeader_length h)]

theorem parse_encode_cons (fid : FetcherId) (r : Response) (rest : List Nat)
    (hwf : ResponseWF fid r) :
    parseGo fid (encodeResponse r ++ rest).length (encodeResponse r ++ rest)
      = (parseGo fid rest.length rest).map (fun rs => r :: rs) := by
  obtain ⟨hh, htw, hlen, hval⟩ := hwf
  have hL : (encodeResponse r ++ rest).length
      = (12 + 9 * r.tracks.length + rest.length) + 1 := by
    rw [List.length_append, encodeResponse, List.length_append, encodeTracks_length,
      encodeHeader_length]
    omega
  rw [hL]
  simp only [encodeResponse, List.append_assoc]
  rw [parseGo_step_ok fid _ r.header ((r.tracks.map encodeTrack).flatten ++ rest) hh hval,
    ← hlen, parseTracks_encode r.tracks rest htw]
  dsimp only
  rw [parseGo_fuel fid _ rest.length rest (by omega) (le_refl _)]
  cases parseGo fid rest.length rest <;> rfl

@[simp] theorem encodeResponses_cons (r : Response) (rs : List Response) :
    encodeResponses (r :: rs) = encodeResponse r ++ encodeResponses rs := by
  simp [encodeResponses]

theorem parse_encode_append (fid : FetcherId) (rs : List Response) (suffix : List Nat)
    (hwf : ∀ r ∈ rs, ResponseWF fid r) :
    parseGo fid (encodeResponses rs ++ suffix).length (encodeResponses rs ++ suffix)
      = (parseGo fid suffix.length suffix).map (fun tail => rs ++ tail) := by
  induction rs with
  | nil =>
    simp only [encodeResponses, List.map_nil, List.flatten_nil, List.nil_append]
    cases parseGo fid suffix.length suffix <;> rfl
  | cons r rs ih =>
    rw [encodeResponses_cons, List.append_assoc, parse_encode_cons fid r _
      (hwf r (by simp)), ih (fun u hu => hwf u (by simp [hu]))]
    cases parseGo fid suffix.length suffix <;> rfl

/-- Any decode error occurring after a run of well-formed matching
responses aborts the whole decode with that error. -/
theorem parse_error_suffix (fid : FetcherId) (rs : List Response) (suffix : List Nat)
    (e : DecodeError) (hwf : ∀ r ∈ rs, ResponseWF fid r)
    (hsuf : parseGo fid suffix.length suffix = .error e) :
    _parse_raw_bytes fid (encodeResponses rs ++ suffix) = .error e := by
  unfold _parse_raw_bytes
  rw [parse_encode_append fid rs suffix hwf, hsuf]
  rfl

/-- Round trip: a well-formed matching buffer decodes to exactly its
responses. -/
theorem parse_encode (fid : FetcherId) (rs : List Response)
    (hwf : ∀ r ∈ rs, ResponseWF fid r) :
    _parse_raw_bytes fid (encodeResponses rs) = .ok ⟨rs⟩ := by
  unfold _parse_raw_bytes
  have h := parse_encode_append fid rs [] hwf
  simp only [List.append_nil] at h
  rw [h]
  simp [parseGo, Except.map]

/-- Decoded responses always carry a matching validated header and a
track list of exactly the advertised length. -/
theorem parseGo_wf (fid : FetcherId) (fuel : Nat) :
    ∀ (raw : List Nat) (rs : List Response), parseGo fid fuel raw = .ok rs →
    ∀ r ∈ rs, _validate_header fid r.header = true
      ∧ r.tracks.length = r.header.num_tracks := by
  induction fuel with
  | zero =>
    intro raw rs h r hr
    match raw with
    | [] =>
      simp only [parseGo, Except.ok.injEq] at h
      subst h
      simp at hr
    | b :: rest => exact absurd h (by simp [parseGo])
  | succ fuel ih =>
    intro raw rs h r hr
    match raw with
    | [] =>
      simp only [parseGo, Except.ok.injEq] at h
      subst h
      simp at hr
    | b :: rest =>
      simp only [parseGo] at h
      cases hh : headerFromBytes (b :: rest) with
      | none => rw [hh] at h; simp at h
      | some header =>
        rw [hh] at h
        dsimp only at h
        by_cases hv : _validate_header fid header = true
        · rw [if_pos hv] at h
          cases hts : parseTracks header.num_tracks ((b :: rest).drop 13) with
          | error e => rw [hts] at h; simp at h
          | ok p =>
            obtain ⟨tracks, remaining⟩ := p
            rw [hts] at h
            dsimp only at h
            cases hgo : parseGo fid fuel remaining with
            | error e => rw [hgo] at h; simp at h
            | ok responses =>
              rw [hgo] at h
              dsimp only at h
              simp only [Except.ok.injEq] at h
              subst h
              rcases List.mem_cons.mp hr with hr | hr
              · subst hr
                exact ⟨hv, (parseTracks_ok _ _ _ _ hts).1⟩
              · exact ih remaining responses hgo r hr
        · rw [if_neg hv] at h
          simp at h

/-- Claim C3: the response decoder is atomic.  After any run of
well-formed responses matching the expected identity: a header that
fails validation aborts the whole decode with `headerMismatch`
(returning no responses at all, even though the prefix parsed cleanly);
a remainder too short for a full 13-byte header, or track records too
short for the advertised track count, abort it with `truncated`; and in
particular truncating a well-formed buffer by 1 to 8 bytes (at its
final record boundary) always yields `truncated`. -/
theorem C3_decoder_atomic (fid : FetcherId) (rs : List Response)
    (hwf : ∀ r ∈ rs, ResponseWF fid r) :
    (∀ (h : Header) (rest : List Nat), HeaderWF h → _validate_header fid h = false →
      _parse_raw_bytes fid (encodeResponses rs ++ (encodeHeader h ++ rest))
        = .error .headerMismatch)
    ∧ (∀ junk : List Nat, junk ≠ [] → junk.length < 13 →
      _parse_raw_bytes fid (encodeResponses rs ++ junk) = .error .truncated)
    ∧ (∀ (h : Header) (tb : List Nat), HeaderWF h → _validate_header fid h = true →
      tb.length < 9 * h.num_tracks →
      _parse_raw_bytes fid (encodeResponses rs ++ (encodeHeader h ++ tb))
        = .error .truncated)
    ∧ (∀ k, 1 ≤ k → k ≤ 8 → rs ≠ [] →
      _parse_raw_bytes fid
          ((encodeResponses rs).take ((encodeResponses rs).length - k))
        = .error .truncated) := by
  refine ⟨?_, ?_, ?_, ?_⟩
  · intro h rest hh hval
    refine parse_error_suffix fid rs _ _ hwf ?_
    have hlen : (encodeHeader h ++ rest).length = (12 + rest.length) + 1 := by
      rw [List.length_append, encodeHeader_length]
      omega
    rw [hlen]
    exact parseGo_step_mismatch fid _ h rest hh hval
  · intro junk hne hlen
    exact parse_error_suffix fid rs junk _ hwf (parseGo_short fid _ junk hne hlen)
  · intro h tb hh hval htb
    refine parse_error_suffix fid rs _ _ hwf ?_
    have hlen : (encodeHeader h ++ tb).length = (12 + tb.length) + 1 := by
      rw [List.length_append, encodeHeader_length]
      omega
    rw [hlen, parseGo_step_ok fid _ h tb hh hval, parseTracks_short _ _ htb]
  · intro k hk1 hk8 hne
    rcases List.eq_nil_or_concat rs with rfl | ⟨rs1, r, rfl⟩
    · exact absurd rfl hne
    rw [List.concat_eq_append] at *
    have hwf1 : ∀ u ∈ rs1, ResponseWF fid u := fun u hu => hwf u (by simp [hu])
    have hwfr : ResponseWF fid r := hwf r (by simp)
    obtain ⟨hh, htw, hlen, hval⟩ := hwfr
    have hM : (encodeResponse r).length = 13 + 9 * r.tracks.length := by
      rw [encodeResponse, List.length_append, encodeTracks_length, encodeHeader_length]
    have hencs : encodeResponses (rs1 ++ [r])
        = encodeResponses rs1 ++ encodeResponse r := by
      simp [encodeResponses]
    rw [hencs]
    have htake : (encodeResponses rs1 ++ encodeResponse r).take
          ((encodeResponses rs1 ++ encodeResponse r).length - k)
        = encodeResponses rs1 ++ (encodeResponse r).take ((encodeResponse r).length - k) := by
      rw [List.take_append_eq_append_take, List.take_of_length_le (by simp; omega)]
      congr 1
      congr 1
      simp
      omega
    rw [htake]
    cases hts : r.tracks with
    | nil =>
      refine parse_error_suffix fid rs1 _ _ hwf1 ?_
      have hlen13 : ((encodeResponse r).take ((encodeResponse r).length - k)).length
          = 13 - k := by
        rw [List.length_take, hM, hts]
        simp only [List.length_nil, Nat.mul_zero, Nat.add_zero]
        omega
      refine parseGo_short fid _ _ ?_ (by rw [hlen13]; omega)
      intro hcon
      rw [hcon] at hlen13
      simp at hlen13
      omega
    | cons t ts =>
      have ht1 : 1 ≤ r.tracks.length := by rw [hts]; simp
      have hbody : encodeResponse r
          = encodeHeader r.header ++ (r.tracks.map encodeTrack).flatten := rfl
      have hMlen : (encodeHeader r.header ++ (r.tracks.map encodeTrack).flatten).length
          = 13 + 9 * r.tracks.length := by
        rw [List.length_append, encodeTracks_length, encodeHeader_length]
      have htake2 : (encodeResponse r).take ((encodeResponse r).length - k)
          = encodeHeader r.header
            ++ ((r.tracks.map encodeTrack).flatten).take (9 * r.tracks.length - k) := by
        rw [hbody, List.take_append_eq_append_take, hMlen, encodeHeader_length,
          List.take_of_length_le (by rw [encodeHeader_length]; omega)]
        have harith : 13 + 9 * r.tracks.length - k - 13 = 9 * r.tracks.length - k := by
          omega
        rw [harith]
      rw [htake2]
      refine parse_error_suffix fid rs1 _ _ hwf1 ?_
      have hlen2 : (encodeHeader r.header
          ++ ((r.tracks.map encodeTrack).flatten).take (9 * r.tracks.length - k)).length
          = (12 + (9 * r.tracks.length - k)) + 1 := by
        rw [List.length_append, encodeHeader_length, List.length_take, encodeTracks_length]
        omega
      rw [hlen2, parseGo_step_ok fid _ r.header _ hh hval, parseTracks_short _ _ ?_]
      rw [List.length_take, encodeTracks_length, ← hlen]
      omega

/-- Witness for C3: `C3_decoder_atomic` on a one-response single-track
buffer: dropping the last byte gives `truncated`, and appending a
response whose header has the wrong `ar_id1` gives `headerMismatch`. -/
theorem C3_decoder_atomic_witness :
    _parse_raw_bytes ⟨1, "00000001", "00000002", "00000003"⟩
        ((encodeResponses [⟨⟨1, 1, 2, 3⟩, [⟨7, 10, 20⟩]⟩]).take
          ((encodeResponses [⟨⟨1, 1, 2, 3⟩, [⟨7, 10, 20⟩]⟩]).length - 1))
      = .error .truncated
    ∧ _parse_raw_bytes ⟨1, "00000001", "00000002", "00000003"⟩
        (encodeResponses [⟨⟨1, 1, 2, 3⟩, [⟨7, 10, 20⟩]⟩]
          ++ (encodeHeader ⟨1, 4, 2, 3⟩ ++ []))
      = .error .headerMismatch :=
  ⟨(C3_decoder_atomic ⟨1, "00000001", "00000002", "00000003"⟩
      [⟨⟨1, 1, 2, 3⟩, [⟨7, 10, 20⟩]⟩] (by decide)).2.2.2 1 (by decide) (by decide) (by decide),
   (C3_decoder_atomic ⟨1, "00000001", "00000002", "00000003"⟩
      [⟨⟨1, 1, 2, 3⟩, [⟨7, 10, 20⟩]⟩] (by decide)).1 ⟨1, 4, 2, 3⟩ [] (by decide) (by decide)⟩

/-! ## Checksum lookup table (`AccurateRipDisc.make_dict`)

`make_dict` turns the decoded responses into `{track index → {checksum
→ {confidence, response ordinal}}}`, dropping entries with confidence
zero, and appends one extra empty map at index `trackCount + 1` for
mixed-mode handling.  The Python code crashes (IndexError/NameError) on
an empty response list, zero tracks, or responses with missing track
slots, so the embedding returns `none` in precisely those cases. -/

structure DictEntry where
  confidence : Nat
  response : Nat
deriving DecidableEq, Repr

/-- One track's checksum map: the inner loop of `make_dict` over all
responses (`rsp` is enumerated from 1, matching `'response': rsp + 1`). -/
def make_dict_inner (d : AccurateRipDisc) (trk : Nat) : List (Nat × DictEntry) :=
  (List.enumFrom 1 d.responses).foldl
    (fun inner p =>
      let track := p.2.tracks.getD trk default
      if track.confidence ≠ 0 then alSet track.checksum ⟨track.confidence, p.1⟩ inner
      else inner)
    []

/-- Number of tracks used by `make_dict`: from the first response. -/
def disc_num_tracks (d : AccurateRipDisc) : Nat :=
  match d.responses with
  | [] => 0
  | r :: _ => r.header.num_tracks

def make_dict (d : AccurateRipDisc) : Option (List (Nat × List (Nat × DictEntry))) :=
  match d.responses with
  | [] => none
  | r0 :: _ =>
    let num_tracks := r0.header.num_tracks
    if num_tracks = 0 then none
    else if ∀ r ∈ d.responses, num_tracks ≤ r.tracks.length then
      some (alSet (num_tracks + 1) []
        ((List.range num_tracks).foldl
          (fun data trk => alSet (trk + 1) (make_dict_inner d trk) data) []))
    else none

theorem alSet_mem {α β : Type} [DecidableEq α] (k : α) (v : β) (l : List (α × β))
    (p : α × β) (hp : p ∈ alSet k v l) : p = (k, v) ∨ p ∈ l := by
  induction l with
  | nil =>
    simp only [alSet, List.mem_singleton] at hp
    exact Or.inl hp
  | cons q t ih =>
    obtain ⟨k', v'⟩ := q
    by_cases h : k' = k
    · subst h
      simp only [alSet, if_pos] at hp
      rcases List.mem_cons.mp hp with hp | hp
      · exact Or.inl hp
      · exact Or.inr (List.mem_cons_of_mem _ hp)
    · simp only [alSet, if_neg h] at hp
      rcases List.mem_cons.mp hp with hp | hp
      · exact Or.inr (by rw [hp]; exact List.mem_cons_self _ _)
      · rcases ih hp with hp | hp
        · exact Or.inl hp
        · exact Or.inr (List.mem_cons_of_mem _ hp)

/-- Every entry of a track's checksum map has nonzero confidence. -/
theorem make_dict_inner_conf (d : AccurateRipDisc) (trk : Nat) :
    ∀ p ∈ make_dict_inner d trk, p.2.confidence ≠ 0 := by
  unfold make_dict_inner
  generalize List.enumFrom 1 d.responses = l
  induction l using List.reverseRecOn with
  | nil => simp
  | append_singleton l q ih =>
    rw [List.foldl_append, List.foldl_cons, List.foldl_nil]
    intro p hp
    by_cases hc : (q.2.tracks.getD trk default).confidence ≠ 0
    · rw [if_pos hc] at hp
      rcases alSet_mem _ _ _ p hp with hp | hp
      · rw [hp]
        exact hc
      · exact ih p hp
    · rw [if_neg hc] at hp
      exact ih p hp

theorem fold_alSet_range {β : Type} (g : Nat → β) (N : Nat) :
    (List.range N).foldl (fun data trk => alSet (trk + 1) (g trk) data) []
      = (List.range N).map (fun trk => (trk + 1, g trk)) := by
  induction N with
  | zero => simp
  | succ N ih =>
    rw [List.range_succ, List.foldl_append, List.foldl_cons, List.foldl_nil, ih,
      List.map_append, List.map_singleton, alSet_fresh]
    intro hc
    simp only [alKeys, List.map_map, List.mem_map, List.mem_range, Function.comp] at hc
    obtain ⟨i, hi, hieq⟩ := hc
    omega

/-- The keys of the lookup table are exactly `1 .. trackCount + 1`. -/
theorem make_dict_keys (d : AccurateRipDisc) (dict : List (Nat × List (Nat × DictEntry)))
    (h : make_dict d = some dict) :
    alKeys dict = (List.range (disc_num_tracks d)).map (fun i => i + 1)
      ++ [disc_num_tracks d + 1] := by
  unfold make_dict at h
  cases hresp : d.responses with
  | nil => rw [hresp] at h; exact absurd h (by simp)
  | cons r0 rest =>
    rw [hresp] at h
    dsimp only at h
    by_cases h0 : r0.header.num_tracks = 0
    · rw [if_pos h0] at h
      exact absurd h (by simp)
    · rw [if_neg h0] at h
      by_cases hlen : ∀ r ∈ r0 :: rest, r0.header.num_tracks ≤ r.tracks.length
      · rw [if_pos hlen] at h
        simp only [Option.some.injEq] at h
        subst h
        rw [fold_alSet_range, alSet_fresh]
        · rw [alKeys, List.map_append]
          simp only [List.map_map, disc_num_tracks, hresp]
          rfl
        · intro hc
          simp only [alKeys, List.map_map, List.mem_map, List.mem_range,
            Function.comp] at hc
          obtain ⟨i, hi, hieq⟩ := hc
          omega
      · rw [if_neg hlen] at h
        exact absurd h (by simp)

/-- Claim C4: for every successfully decoded disc with a positive
expected track count and at least one response, `make_dict` succeeds,
none of its entries has confidence 0, and its key list is exactly
`1 .. trackCount`, followed by the extra empty slot `trackCount + 1` —
so it has exactly `trackCount + 1` keys. -/
theorem C4_make_dict (fid : FetcherId) (raw : List Nat) (disc : AccurateRipDisc)
    (hnum : 0 < fid.num_tracks)
    (hparse : _parse_raw_bytes fid raw = .ok disc)
    (hne : disc.responses ≠ []) :
    ∃ dict, make_dict disc = some dict
      ∧ (∀ p ∈ dict, ∀ q ∈ p.2, q.2.confidence ≠ 0)
      ∧ alKeys dict = (List.range fid.num_tracks).map (fun i => i + 1)
          ++ [fid.num_tracks + 1]
      ∧ (alKeys dict).length = fid.num_tracks + 1 := by
  have hwfall : ∀ r ∈ disc.responses,
      _validate_header fid r.header = true ∧ r.tracks.length = r.header.num_tracks := by
    unfold _parse_raw_bytes at hparse
    cases hgo : parseGo fid raw.length raw with
    | error e => rw [hgo] at hparse; exact absurd hparse (by simp [Except.map])
    | ok rs =>
      rw [hgo] at hparse
      simp only [Except.map, Except.ok.injEq] at hparse
      subst hparse
      exact parseGo_wf fid raw.length raw rs hgo
  have hnum_eq : ∀ r ∈ disc.responses, r.header.num_tracks = fid.num_tracks := by
    intro r hr
    have := (hwfall r hr).1
    unfold _validate_header at this
    rw [decide_eq_true_iff] at this
    exact this.1
  obtain ⟨r0, rest, hresp⟩ : ∃ r0 rest, disc.responses = r0 :: rest := by
    cases h : disc.responses with
    | nil => exact absurd h hne
    | cons a b => exact ⟨a, b, rfl⟩
  have h0 : r0.header.num_tracks = fid.num_tracks :=
    hnum_eq r0 (by rw [hresp]; simp)
  have hdict : make_dict disc = some (alSet (r0.header.num_tracks + 1) []
      ((List.range r0.header.num_tracks).foldl
        (fun data trk => alSet (trk + 1) (make_dict_inner disc trk) data) [])) := by
    have hlen : ∀ r ∈ r0 :: rest, r0.header.num_tracks ≤ r.tracks.length := by
      intro r hr
      have hr' : r ∈ disc.responses := by rw [hresp]; exact hr
      rw [(hwfall r hr').2, h0, hnum_eq r hr']
    unfold make_dict
    rw [hresp]
    dsimp only
    rw [if_neg (by rw [h0]; omega), if_pos hlen]
  refine ⟨_, hdict, ?_, ?_, ?_⟩
  · intro p hp q hq
    rcases alSet_mem _ _ _ p hp with hp' | hp'
    · rw [hp'] at hq
      simp at hq
    · rw [fold_alSet_range] at hp'
      obtain ⟨trk, _, htrk⟩ := List.mem_map.mp hp'
      have : p.2 = make_dict_inner disc trk := by rw [← htrk]
      rw [this] at hq
      exact make_dict_inner_conf disc trk q hq
  · have hdn : disc_num_tracks disc = fid.num_tracks := by
      unfold disc_num_tracks
      rw [hresp]
      exact h0
    have hkeys := make_dict_keys disc _ hdict
    rw [hdn] at hkeys
    exact hkeys
  · have hdn : disc_num_tracks disc = fid.num_tracks := by
      unfold disc_num_tracks
      rw [hresp]
      exact h0
    have hkeys := make_dict_keys disc _ hdict
    rw [hdn] at hkeys
    rw [hkeys]
    simp

/-- Witness for C4: `C4_make_dict` applied to the concrete encoded
buffer of two single-track responses (one of them with a confidence-0
slot; decoding and table construction evaluated by `decide`). -/
theorem C4_make_dict_witness :
    ∃ dict, make_dict ⟨[⟨⟨1, 1, 2, 3⟩, [⟨7, 10, 20⟩]⟩, ⟨⟨1, 1, 2, 3⟩, [⟨0, 11, 21⟩]⟩]⟩
        = some dict
      ∧ (∀ p ∈ dict, ∀ q ∈ p.2, q.2.confidence ≠ 0)
      ∧ alKeys dict = (List.range 1).map (fun i => i + 1) ++ [1 + 1]
      ∧ (alKeys dict).length = 1 + 1 :=
  C4_make_dict ⟨1, "00000001", "00000002", "00000003"⟩
    (encodeResponses [⟨⟨1, 1, 2, 3⟩, [⟨7, 10, 20⟩]⟩, ⟨⟨1, 1, 2, 3⟩, [⟨0, 11, 21⟩]⟩])
    ⟨[⟨⟨1, 1, 2, 3⟩, [⟨7, 10, 20⟩]⟩, ⟨⟨1, 1, 2, 3⟩, [⟨0, 11, 21⟩]⟩]⟩
    (by decide)
    (parse_encode ⟨1, "00000001", "00000002", "00000003"⟩ _ (by decide))
    (by decide)

/-! ## ChecksumEngine (`arver/audio/checksums.py` and the `_audio` C extension)

The Python layer (`get_checksums`) returns a *triple* `(v1, v2, crc32)`
computed by the `_audio` C extension, whose source is not part of the
tree; the checksum algorithms themselves are therefore modelled from
the spec.  A sample frame is one 32-bit value (left+right 16-bit
channels packed, little endian on the wire). -/

/-- Modelled from the spec: the AccurateRip frame-inclusion rule — the
first 2940 frames of the first track and the last 2940 frames of the
last track are excluded; `i` is the 1-based frame position and `n` the
frame count of the track.  (The C extension implementing this is not
under `src/`.) -/
def frame_included (track_no total_tracks n i : Nat) : Bool :=
  (!(track_no == 1) || 2940 < i) && (!(track_no == total_tracks) || i + 2940 ≤ n)

/-- Modelled from the spec: AccurateRip v1 — sum of the included frames'
32-bit values, modulo 2^32. -/
def arv1 (samples : List Nat) (track_no total_tracks : Nat) : Nat :=
  ((List.enumFrom 1 samples).foldl
    (fun acc p =>
      if frame_included track_no total_tracks samples.length p.1 then acc + p.2 else acc)
    0) % 4294967296

/-- Modelled from the spec: AccurateRip v2 — like v1, but each included
frame's value is multiplied by its 1-based position in the track. -/
def arv2 (samples : List Nat) (track_no total_tracks : Nat) : Nat :=
  ((List.enumFrom 1 samples).foldl
    (fun acc p =>
      if frame_included track_no total_tracks samples.length p.1 then acc + p.2 * p.1 else acc)
    0) % 4294967296

/-- One bit step of the reflected CRC-32 (polynomial `0xEDB88320`). -/
def crc32_step (c : Nat) : Nat :=
  if c % 2 = 1 then (c / 2) ^^^ 0xEDB88320 else c / 2

/-- Fold one byte into a CRC-32 accumulator. -/
def crc32_byte (c b : Nat) : Nat :=
  crc32_step^[8] (c ^^^ b)

/-- Modelled from the spec: standard CRC-32 over every audio byte of
the track, no exclusions (init `0xFFFFFFFF`, final xor-out). -/
def crc32 (data : List Nat) : Nat :=
  (data.foldl crc32_byte 0xFFFFFFFF) ^^^ 0xFFFFFFFF

/-- The audio bytes of a track: each 32-bit frame little endian. -/
def track_bytes (samples : List Nat) : List Nat :=
  (samples.map u32bytes).flatten

/-- Source `get_checksums` (the `_audio.checksums` entry point as wrapped by
`arver/audio/checksums.py`): one pass over the enumerated samples
accumulating the v1 and v2 sums and the CRC-32 simultaneously, then a
final reduction.  Returns the triple `(v1, v2, crc32)` — the Python
wrapper's documented return value. -/
def get_checksums (samples : List Nat) (track_no total_tracks : Nat) : Nat × Nat × Nat :=
  let acc := (List.enumFrom 1 samples).foldl
    (fun (acc : Nat × Nat × Nat) p =>
      let inc := frame_included track_no total_tracks samples.length p.1
      ((if inc then acc.1 + p.2 else acc.1),
       (if inc then acc.2.1 + p.2 * p.1 else acc.2.1),
       (u32bytes p.2).foldl crc32_byte acc.2.2))
    (0, 0, 0xFFFFFFFF)
  (acc.1 % 4294967296, acc.2.1 % 4294967296, acc.2.2 ^^^ 0xFFFFFFFF)

/-- The checksum values returned by one `get_checksums` invocation, in
order — `rip.py` unpacks them as `arv1, arv2, crc32`. -/
def get_checksums_values (samples : List Nat) (track_no total_tracks : Nat) : List Nat :=
  [(get_checksums samples track_no total_tracks).1,
   (get_checksums samples track_no total_tracks).2.1,
   (get_checksums samples track_no total_tracks).2.2]

theorem get_checksums_foldl (samples : List Nat) (track_no total_tracks n : Nat) :
    ∀ (k : Nat) (a b c : Nat),
    (List.enumFrom k samples).foldl
      (fun (acc : Nat × Nat × Nat) p =>
        let inc := frame_included track_no total_tracks n p.1
        ((if inc then acc.1 + p.2 else acc.1),
         (if inc then acc.2.1 + p.2 * p.1 else acc.2.1),
         (u32bytes p.2).foldl crc32_byte acc.2.2))
      (a, b, c)
    = ((List.enumFrom k samples).foldl
        (fun acc p => if frame_included track_no total_tracks n p.1 then acc + p.2 else acc) a,
       (List.enumFrom k samples).foldl
        (fun acc p => if frame_included track_no total_tracks n p.1 then acc + p.2 * p.1 else acc) b,
       ((samples.map u32bytes).flatten).foldl crc32_byte c) := by
  intro k a b c
  induction samples generalizing k a b c with
  | nil => simp
  | cons s ss ih =>
    simp only [List.enumFrom, List.foldl_cons, List.map_cons, List.flatten_cons,
      List.foldl_append]
    rw [ih]

/-- Claim C8: the single invocation `get_checksums` returns exactly three
checksum values — the AccurateRip v1 and v2 checksums and the CRC-32 —
as a deterministic pure function of (samples, track number, total
tracks); evaluated at the failing input from the repo's own test suite
(track 5 of 10), the returned collection has three components, not the
four (`ar1`, `ar2`, `crc`, `crcss`) that the spec and
`tests/checksums_test.py` expect. -/
theorem C8_checksums_triple (samples : List Nat) (track_no total_tracks : Nat) :
    get_checksums samples track_no total_tracks
      = (arv1 samples track_no total_tracks,
         arv2 samples track_no total_tracks,
         crc32 (track_bytes samples))
    ∧ (get_checksums_values samples track_no total_tracks).length = 3 := by
  constructor
  · unfold get_checksums arv1 arv2 crc32 track_bytes
    rw [get_checksums_foldl samples track_no total_tracks samples.length 1 0 0 4294967295]
  · rfl

/-! ## VerificationEngine (`Rip.verify`, `arver/rip/rip.py`)

`AudioFile` carries the results of the external collaborators for one
ripped file: the decoded CDDA sample frames (`readSamples`) and the
inverted frame-450 table (`get_frame450_checksums`, checksum → local
offset, zero checksums already dropped).  `DiscInfo` is the TOC-level
state `verify` consumes. -/

def AUDIO_FRAMES_PER_CD_SECTOR : Nat := 588

structure AudioFile where
  path : String
  samples : List Nat
  f450 : List (Nat × Int)
deriving DecidableEq, Repr

/-- Source `AudioFile.cdda_frames`: sample frame count divided by 588. -/
def cdda_frames (f : AudioFile) : Nat :=
  f.samples.length / AUDIO_FRAMES_PER_CD_SECTOR

structure Rip where
  tracks : List AudioFile
deriving DecidableEq, Repr

structure DiscInfo where
  pregap : Option _Track
  track_list : List _Track
  lead_out : Int
  type : DiscType
  accuraterip_data : Option AccurateRipDisc
deriving DecidableEq, Repr

/-- Source `DiscInfo.audio_tracks`. -/
def audio_tracks (d : DiscInfo) : List _Track :=
  d.track_list.filter (fun t => t.type == "audio")

inductive _Status where
  | SUCCESS
  | FAILED
  | NODATA
deriving DecidableEq, Repr

structure TrackVerificationResult where
  path : String
  checksum : Nat
  version : String
  confidence : Int
  response : Int
  status : _Status
deriving DecidableEq, Repr

/-- The distinct `raise` sites of `Rip.verify` and `Rip._sanity_check`
(all `ValueError` in Python; `lookupCrash` stands for the
IndexError/NameError/KeyError crashes of `make_dict` and of the
`checksums[toc_idx]` lookup). -/
inductive VerifyError where
  | trackCountMismatch
  | lengthMismatch
  | missingData
  | lookupCrash
deriving DecidableEq, Repr

/-- Source `Rip._sanity_check`: the track-count mismatch is always fatal, a
length mismatch only outside permissive mode. -/
def _sanity_check (rip : Rip) (disc : DiscInfo) (permissive : Bool) :
    Except VerifyError Unit :=
  let num_files := rip.tracks.length
  let num_tracks := (audio_tracks disc).length
  if num_files ≠ num_tracks then .error .trackCountMismatch
  else
    let num_mismatched := ((rip.tracks.zip (audio_tracks disc)).filter
      (fun p => decide (p.2.frames - (cdda_frames p.1 : Int) ≠ 0))).length
    if ¬permissive ∧ num_mismatched ≠ 0 then .error .lengthMismatch
    else .ok ()

/-- The `(toc_idx, rip_idx)` pairs of `Rip.verify`'s loop for `n` rip
tracks: `enumerate(self.tracks, start=toc_idx_start)` with
`toc_idx_start = 2` on mixed mode CDs (`1` otherwise), and
`rip_idx = toc_idx - 1` on mixed mode CDs (`toc_idx` otherwise). -/
def verify_index_pairs (mixed_mode : Bool) (n : Nat) : List (Nat × Nat) :=
  (List.range n).map (fun i =>
    let toc_idx := (if mixed_mode then 2 else 1) + i
    (toc_idx, if mixed_mode then toc_idx - 1 else toc_idx))

/-- The per-track classification of `Rip.verify`'s loop body, in source
order: empty map → NODATA; v2 hit → SUCCESS (ARv2); v1 hit → SUCCESS
(ARv1); otherwise FAILED with the local v2 checksum. -/
def verify_track (path : String) (m : List (Nat × DictEntry)) (ar1 ar2 : Nat) :
    TrackVerificationResult :=
  if m = [] then ⟨path, ar2, "ARv2", -1, -1, _Status.NODATA⟩
  else
    match alGet ar2 m with
    | some e => ⟨path, ar2, "ARv2", e.confidence, e.response, _Status.SUCCESS⟩
    | none =>
      match alGet ar1 m with
      | some e => ⟨path, ar1, "ARv1", e.confidence, e.response, _Status.SUCCESS⟩
      | none => ⟨path, ar2, "ARv2", -1, -1, _Status.FAILED⟩

/-- The main loop of `Rip.verify`: one result appended per rip track; a
missing lookup-table key would be a `KeyError`. -/
def verify_loop (checksums : List (Nat × List (Nat × DictEntry))) (n : Nat) :
    List ((Nat × Nat) × AudioFile) → Except VerifyError (List TrackVerificationResult)
  | [] => .ok []
  | (idx, track) :: rest =>
    match alGet idx.1 checksums with
    | none => .error .lookupCrash
    | some m =>
      let cs := get_checksums track.samples idx.2 n
      match verify_loop checksums n rest with
      | .error e => .error e
      | .ok results => .ok (verify_track track.path m cs.1 cs.2.1 :: results)

/-- Source `Rip.verify`. -/
def verify (rip : Rip) (disc_info : DiscInfo) (permissive : Bool) :
    Except VerifyError (List TrackVerificationResult) :=
  match _sanity_check rip disc_info permissive with
  | .error e => .error e
  | .ok _ =>
    match disc_info.accuraterip_data with
    | none => .error .missingData
    | some d =>
      match make_dict d with
      | none => .error .lookupCrash
      | some checksums =>
        let mixed_mode := decide (disc_info.type = DiscType.MIXED_MODE)
        let n := rip.tracks.length
        verify_loop checksums n ((verify_index_pairs mixed_mode n).zip rip.tracks)

/-- Claim C1: the per-track result follows the claimed priority: a v2
checksum hit gives `SUCCESS` with version ARv2 and that entry's
confidence and response ordinal; otherwise a v1 hit gives `SUCCESS`
with version ARv1; otherwise an empty lookup map gives `NODATA`; and
otherwise the result is `FAILED` carrying the local v2 checksum. -/
theorem C1_track_priority (path : String) (m : List (Nat × DictEntry)) (ar1 ar2 : Nat) :
    (∀ e, alGet ar2 m = some e →
      verify_track path m ar1 ar2
        = ⟨path, ar2, "ARv2", e.confidence, e.response, _Status.SUCCESS⟩)
    ∧ (alGet ar2 m = none → ∀ e, alGet ar1 m = some e →
      verify_track path m ar1 ar2
        = ⟨path, ar1, "ARv1", e.confidence, e.response, _Status.SUCCESS⟩)
    ∧ (alGet ar2 m = none → alGet ar1 m = none → m = [] →
      verify_track path m ar1 ar2 = ⟨path, ar2, "ARv2", -1, -1, _Status.NODATA⟩)
    ∧ (alGet ar2 m = none → alGet ar1 m = none → m ≠ [] →
      verify_track path m ar1 ar2 = ⟨path, ar2, "ARv2", -1, -1, _Status.FAILED⟩) := by
  refine ⟨?_, ?_, ?_, ?_⟩
  · intro e he
    have hne : m ≠ [] := by
      rintro rfl
      simp [alGet] at he
    rw [verify_track, if_neg hne, he]
  · intro h2 e he
    have hne : m ≠ [] := by
      rintro rfl
      simp [alGet] at he
    rw [verify_track, if_neg hne, h2, he]
  · intro _ _ hm
    rw [verify_track, if_pos hm]
  · intro h2 h1 hne
    rw [verify_track, if_neg hne, h2, h1]

/-- Witness for C1: the four branches of `C1_track_priority` evaluated
on concrete lookup maps. -/
theorem C1_track_priority_witness :
    verify_track "t.wav" [(5, ⟨3, 1⟩), (9, ⟨2, 2⟩)] 5 9
      = ⟨"t.wav", 9, "ARv2", 2, 2, _Status.SUCCESS⟩
    ∧ verify_track "t.wav" [(5, ⟨3, 1⟩)] 5 9
      = ⟨"t.wav", 5, "ARv1", 3, 1, _Status.SUCCESS⟩
    ∧ verify_track "t.wav" [] 5 9
      = ⟨"t.wav", 9, "ARv2", -1, -1, _Status.NODATA⟩
    ∧ verify_track "t.wav" [(7, ⟨3, 1⟩)] 5 9
      = ⟨"t.wav", 9, "ARv2", -1, -1, _Status.FAILED⟩ :=
  ⟨(C1_track_priority "t.wav" [(5, ⟨3, 1⟩), (9, ⟨2, 2⟩)] 5 9).1 ⟨2, 2⟩ (by decide),
   (C1_track_priority "t.wav" [(5, ⟨3, 1⟩)] 5 9).2.1 (by decide) ⟨3, 1⟩ (by decide),
   (C1_track_priority "t.wav" [] 5 9).2.2.1 (by decide) (by decide) rfl,
   (C1_track_priority "t.wav" [(7, ⟨3, 1⟩)] 5 9).2.2.2 (by decide) (by decide) (by decide)⟩

/-- Claim C5: in `Rip.verify`'s index mapping, the TOC index equals the
rip index except on mixed mode discs, where the TOC index is the rip
index plus one; in particular rip track 1 of a mixed mode disc is
matched against lookup-table slot 2. -/
theorem C5_index_mapping (n : Nat) :
    (∀ p ∈ verify_index_pairs false n, p.1 = p.2)
    ∧ (∀ p ∈ verify_index_pairs true n, p.1 = p.2 + 1)
    ∧ (0 < n → (verify_index_pairs true n).head? = some (2, 1)) := by
  refine ⟨?_, ?_, ?_⟩
  · intro p hp
    obtain ⟨i, _, hi⟩ := List.mem_map.mp hp
    rw [← hi]
    simp
  · intro p hp
    obtain ⟨i, _, hi⟩ := List.mem_map.mp hp
    rw [← hi]
    simp
    omega
  · intro hn
    unfold verify_index_pairs
    match n, hn with
    | n + 1, _ =>
      rw [List.range_succ_eq_map]
      rfl

/-- Witness for C5: `C5_index_mapping` at `n = 3`: mixed mode maps rip
track 1 to TOC slot 2. -/
theorem C5_index_mapping_witness :
    (2, 1) ∈ verify_index_pairs true 3
    ∧ (verify_index_pairs true 3).head? = some (2, 1) :=
  ⟨by decide, (C5_index_mapping 3).2.2 (by decide)⟩

/-- Lemma: `make_dict` succeeds exactly when the Python code does not crash:
at least one response, a positive track count, and no response shorter
than the advertised track count. -/
theorem make_dict_some (d : AccurateRipDisc) (hned : d.responses ≠ [])
    (h0 : 0 < disc_num_tracks d)
    (htrks : ∀ r ∈ d.responses, disc_num_tracks d ≤ r.tracks.length) :
    make_dict d = some (alSet (disc_num_tracks d + 1) []
      ((List.range (disc_num_tracks d)).foldl
        (fun data trk => alSet (trk + 1) (make_dict_inner d trk) data) [])) := by
  obtain ⟨r0, rest, hresp⟩ : ∃ r0 rest, d.responses = r0 :: rest := by
    cases h : d.responses with
    | nil => exact absurd h hned
    | cons a b => exact ⟨a, b, rfl⟩
  have hdn : disc_num_tracks d = r0.header.num_tracks := by
    unfold disc_num_tracks
    rw [hresp]
  unfold make_dict
  rw [hresp]
  dsimp only
  rw [if_neg (by omega), if_pos, hdn]
  intro r hr
  rw [← hdn]
  exact htrks r (by rw [hresp]; exact hr)

/-- The lookup table has a (possibly empty) slot for every index from 1
to `trackCount + 1` and nothing else. -/
theorem make_dict_keys_mem (d : AccurateRipDisc) (dict : List (Nat × List (Nat × DictEntry)))
    (h : make_dict d = some dict) (i : Nat) :
    i ∈ alKeys dict ↔ 1 ≤ i ∧ i ≤ disc_num_tracks d + 1 := by
  rw [make_dict_keys d dict h]
  simp only [List.mem_append, List.mem_map, List.mem_range, List.mem_singleton]
  constructor
  · rintro (⟨j, hj, rfl⟩ | rfl) <;> omega
  · rintro ⟨h1, h2⟩
    by_cases hEnd : i = disc_num_tracks d + 1
    · exact Or.inr hEnd
    · exact Or.inl ⟨i - 1, by omega, by omega⟩

theorem verify_loop_ok (checksums : List (Nat × List (Nat × DictEntry))) (n : Nat) :
    ∀ l : List ((Nat × Nat) × AudioFile),
    (∀ p ∈ l, ∃ m, alGet p.1.1 checksums = some m) →
    ∃ results, verify_loop checksums n l = .ok results ∧ results.length = l.length := by
  intro l
  induction l with
  | nil => intro _; exact ⟨[], rfl, rfl⟩
  | cons q rest ih =>
    intro hkeys
    obtain ⟨idx, track⟩ := q
    obtain ⟨m, hm⟩ := hkeys (idx, track) (List.mem_cons_self _ _)
    dsimp only at hm
    obtain ⟨results, hres, hlen⟩ := ih (fun p hp => hkeys p (by simp [hp]))
    refine ⟨verify_track track.path m (get_checksums track.samples idx.2 n).1
        (get_checksums track.samples idx.2 n).2.1 :: results, ?_, by simp [hlen]⟩
    simp only [verify_loop]
    rw [hm, hres]

theorem verify_index_pairs_bound (b : Bool) (n : Nat) (p : Nat × Nat)
    (hp : p ∈ verify_index_pairs b n) : 1 ≤ p.1 ∧ p.1 ≤ n + 1 := by
  obtain ⟨i, hi, hieq⟩ := List.mem_map.mp hp
  rw [List.mem_range] at hi
  rw [← hieq]
  cases b <;> simp <;> omega

/-- Counterexample for C9: a rip whose track count and per-track frame
lengths match the disc TOC exactly, verified in permissive mode,
still raises (`Cannot verify: missing AccurateRip data!`) because the
disc has no AccurateRip data — refuting "never raises an error". -/
theorem C9_counterexample :
    (Rip.mk [⟨"track01.wav", [], []⟩]).tracks.length
      = (audio_tracks ⟨none, [⟨1, 150, 0, "audio"⟩], 150, DiscType.AUDIO, none⟩).length
    ∧ (∀ p ∈ (Rip.mk [⟨"track01.wav", [], []⟩]).tracks.zip
        (audio_tracks ⟨none, [⟨1, 150, 0, "audio"⟩], 150, DiscType.AUDIO, none⟩),
        p.2.frames = (cdda_frames p.1 : Int))
    ∧ verify (Rip.mk [⟨"track01.wav", [], []⟩])
        ⟨none, [⟨1, 150, 0, "audio"⟩], 150, DiscType.AUDIO, none⟩ true
      = .error VerifyError.missingData := by
  refine ⟨rfl, by decide, ?_⟩
  rfl

/-- Claim C9, amended: for every rip whose track count equals the disc's
audio track count and whose per-track frame lengths match the TOC,
*provided the disc carries AccurateRip data* — nonempty, with a
positive track count equal to the disc's audio track count, and no
response shorter than that count — permissive verification returns
`ok` with exactly one result per rip track. -/
theorem C9_verify_permissive (rip : Rip) (disc : DiscInfo) (d : AccurateRipDisc)
    (hdata : disc.accuraterip_data = some d)
    (hcount : rip.tracks.length = (audio_tracks disc).length)
    (hlen : ∀ p ∈ rip.tracks.zip (audio_tracks disc), p.2.frames = (cdda_frames p.1 : Int))
    (hned : d.responses ≠ [])
    (h0 : 0 < disc_num_tracks d)
    (hnum : disc_num_tracks d = (audio_tracks disc).length)
    (htrks : ∀ r ∈ d.responses, disc_num_tracks d ≤ r.tracks.length) :
    ∃ results, verify rip disc true = .ok results
      ∧ results.length = rip.tracks.length := by
  have hsanity : _sanity_check rip disc true = .ok () := by
    unfold _sanity_check
    rw [if_neg (by omega), if_neg (by simp)]
  have hdict := make_dict_some d hned h0 htrks
  have hkeys : ∀ p ∈ ((verify_index_pairs (decide (disc.type = DiscType.MIXED_MODE))
      rip.tracks.length).zip rip.tracks),
      ∃ m, alGet p.1.1 (alSet (disc_num_tracks d + 1) []
        ((List.range (disc_num_tracks d)).foldl
          (fun data trk => alSet (trk + 1) (make_dict_inner d trk) data) [])) = some m := by
    intro p hp
    have hp1 := (List.of_mem_zip hp).1
    have hbound := verify_index_pairs_bound _ _ _ hp1
    have hmem : p.1.1 ∈ alKeys (alSet (disc_num_tracks d + 1) []
        ((List.range (disc_num_tracks d)).foldl
          (fun data trk => alSet (trk + 1) (make_dict_inner d trk) data) [])) := by
      rw [make_dict_keys_mem d _ hdict]
      omega
    rw [← alGet_isSome_iff_mem] at hmem
    exact Option.isSome_iff_exists.mp hmem
  obtain ⟨results, hloop, hloop_len⟩ :=
    verify_loop_ok _ rip.tracks.length _ hkeys
  refine ⟨results, ?_, ?_⟩
  · unfold verify
    rw [hsanity]
    dsimp only
    rw [hdata]
    dsimp only
    rw [hdict]
    dsimp only
    exact hloop
  · rw [hloop_len, List.length_zip]
    unfold verify_index_pairs
    simp

/-- Witness for C9: `C9_verify_permissive` on a concrete one-track rip
and matching disc with one single-track AccurateRip response. -/
theorem C9_verify_permissive_witness :
    ∃ results,
      verify (Rip.mk [⟨"track01.wav", [], []⟩])
        ⟨none, [⟨1, 150, 0, "audio"⟩], 150, DiscType.AUDIO,
          some ⟨[⟨⟨1, 1, 2, 3⟩, [⟨7, 10, 20⟩]⟩]⟩⟩ true
        = .ok results
      ∧ results.length
        = (Rip.mk [⟨"track01.wav", [], []⟩]).tracks.length :=
  C9_verify_permissive _ _ ⟨[⟨⟨1, 1, 2, 3⟩, [⟨7, 10, 20⟩]⟩]⟩ rfl (by decide) (by decide)
    (by decide) (by decide) (by decide) (by decide)

/-! ## OffsetDetector (`find_pressing_offset`, `arver/rip/offset.py`)

`find_pressing_offset` calls `make_dict(frame450=True)`; the `frame450`
variant of `make_dict` is not part of the tree, so it is modelled from
the spec below.  The detector looks every nonzero database frame-450
checksum up in each file's inverted frame-window table and aggregates
votes `offset → (tracks, max_conf)`. -/

/-- Modelled from the spec: the per-track inner map of the
`frame450=True` variant of `AccurateRipDisc.make_dict` (whose body is
missing from `src/`; `rip/offset.py` is its only caller).  Per the
spec, the frame-450 checksum of *every* response is recorded,
regardless of confidence — zero confidence is still informative. -/
def make_dict_frame450_inner (d : AccurateRipDisc) (trk : Nat) : List (Nat × DictEntry) :=
  (List.enumFrom 1 d.responses).foldl
    (fun inner p =>
      alSet (p.2.tracks.getD trk default).checksum_450
        ⟨(p.2.tracks.getD trk default).confidence, p.1⟩ inner)
    []

/-- Modelled from the spec: the `frame450=True` lookup table, with the
same indexing (tracks 1..N plus an empty slot N+1) and the same crash
conditions as `make_dict`. -/
def make_dict_frame450 (d : AccurateRipDisc) : Option (List (Nat × List (Nat × DictEntry))) :=
  match d.responses with
  | [] => none
  | r0 :: _ =>
    let num_tracks := r0.header.num_tracks
    if num_tracks = 0 then none
    else if ∀ r ∈ d.responses, num_tracks ≤ r.tracks.length then
      some (alSet (num_tracks + 1) []
        ((List.range num_tracks).foldl
          (fun data trk => alSet (trk + 1) (make_dict_frame450_inner d trk) data) []))
    else none

/-- One vote: `results.setdefault(off, {'max_conf': 0, 'tracks': 0})`
followed by the `tracks` increment and `max_conf` update; the value is
the pair `(tracks, max_conf)`. -/
def addVote (results : List (Int × (Nat × Nat))) (hit : Int × Nat) :
    List (Int × (Nat × Nat)) :=
  match alGet hit.1 results with
  | none => results ++ [(hit.1, (1, max 0 hit.2))]
  | some tm => alSet hit.1 (tm.1 + 1, max tm.2 hit.2) results

/-- The inner loop of `find_pressing_offset` for one rip track: iterate
the track's database frame-450 checksums in order, skip zero checksums,
look each one up in the file's inverted frame-window table, and vote on
a hit (a `KeyError` on a miss is swallowed). -/
def offset_track_votes (offsets : List (Nat × Int))
    (track_checksums : List (Nat × DictEntry))
    (results : List (Int × (Nat × Nat))) : List (Int × (Nat × Nat)) :=
  track_checksums.foldl
    (fun results p =>
      if p.1 = 0 then results
      else
        match alGet p.1 offsets with
        | none => results
        | some off => addVote results (off, p.2.confidence))
    results

/-- The outer loop of `find_pressing_offset` over
`enumerate(rip.tracks, start=1)`; a missing lookup-table slot would be
a `KeyError`. -/
def find_loop (dict450 : List (Nat × List (Nat × DictEntry))) :
    List (Nat × AudioFile) → List (Int × (Nat × Nat)) → Option (List (Int × (Nat × Nat)))
  | [], results => some results
  | (num, track) :: rest, results =>
    match alGet num dict450 with
    | none => none
    | some track_checksums =>
      find_loop dict450 rest (offset_track_votes track.f450 track_checksums results)

/-- Source `find_pressing_offset`: fail on missing AccurateRip data, build the
frame-450 lookup table, aggregate votes across all rip tracks. -/
def find_pressing_offset (disc : DiscInfo) (rip : Rip) :
    Option (List (Int × (Nat × Nat))) :=
  match disc.accuraterip_data with
  | none => none
  | some d =>
    match make_dict_frame450 d with
    | none => none
    | some dict450 => find_loop dict450 (List.enumFrom 1 rip.tracks) []

/-- The `(offset, confidence)` hits of one track: the nonzero database
frame-450 checksums present in the track's inverted frame-window
table. -/
def track_hits (offsets : List (Nat × Int)) (track_checksums : List (Nat × DictEntry)) :
    List (Int × Nat) :=
  track_checksums.filterMap
    (fun p =>
      if p.1 = 0 then none
      else (alGet p.1 offsets).map (fun off => (off, p.2.confidence)))

/-- All hits of a rip, in processing order. -/
def all_hits (dict450 : List (Nat × List (Nat × DictEntry))) :
    List (Nat × AudioFile) → List (Int × Nat)
  | [] => []
  | (num, track) :: rest =>
      track_hits track.f450 ((alGet num dict450).getD []) ++ all_hits dict450 rest

theorem offset_track_votes_eq (offsets : List (Nat × Int))
    (tcs : List (Nat × DictEntry)) :
    ∀ results, offset_track_votes offsets tcs results
      = (track_hits offsets tcs).foldl addVote results := by
  induction tcs with
  | nil => intro results; rfl
  | cons p rest ih =>
    intro results
    simp only [offset_track_votes, track_hits, List.foldl_cons, List.filterMap_cons]
    by_cases h0 : p.1 = 0
    · rw [if_pos h0, if_pos h0]
      exact ih results
    · rw [if_neg h0, if_neg h0]
      cases hget : alGet p.1 offsets with
      | none => exact ih results
      | some off =>
        simp only [Option.map_some']
        rw [List.foldl_cons]
        exact ih (addVote results (off, p.2.confidence))

theorem alGet_append {α β : Type} [DecidableEq α] (k : α) (l1 l2 : List (α × β)) :
    alGet k (l1 ++ l2)
      = match alGet k l1 with
        | some v => some v
        | none => alGet k l2 := by
  induction l1 with
  | nil => rfl
  | cons q t ih =>
    obtain ⟨k', v'⟩ := q
    by_cases h : k' = k
    · simp [alGet, h]
    · simp only [List.cons_append, alGet, if_neg h]
      exact ih

/-- Aggregation invariant of the vote fold: at each offset the result is
the previous entry extended by the number of hits and the running
maximum confidence. -/
theorem addVotes_lookup (hits : List (Int × Nat)) : ∀ (acc : List (Int × (Nat × Nat))) (o : Int),
    alGet o (hits.foldl addVote acc)
      = match alGet o acc with
        | none =>
          if (hits.filter (fun p => p.1 = o)).length = 0 then none
          else some ((hits.filter (fun p => p.1 = o)).length,
            (hits.filter (fun p => p.1 = o)).foldl (fun a p => max a p.2) 0)
        | some tm =>
          some (tm.1 + (hits.filter (fun p => p.1 = o)).length,
            (hits.filter (fun p => p.1 = o)).foldl (fun a p => max a p.2) tm.2) := by
  induction hits with
  | nil =>
    intro acc o
    simp only [List.foldl_nil, List.filter_nil, List.length_nil]
    cases alGet o acc <;> simp
  | cons h rest ih =>
    intro acc o
    rw [List.foldl_cons, ih (addVote acc h) o]
    by_cases ho : h.1 = o
    · have hfil : (h :: rest).filter (fun p => p.1 = o)
          = h :: rest.filter (fun p => p.1 = o) := by
        rw [List.filter_cons, if_pos (by simpa using ho)]
      rw [hfil]
      cases hacc : alGet o acc with
      | none =>
        have haddv : alGet o (addVote acc h) = some (1, max 0 h.2) := by
          unfold addVote
          rw [ho, hacc, alGet_append, hacc]
          simp [alGet]
        rw [haddv]
        dsimp only
        rw [List.length_cons, List.foldl_cons, if_neg (by omega)]
        simp only [Option.some.injEq, Prod.mk.injEq]
        exact ⟨by omega, trivial⟩
      | some tm =>
        have haddv : alGet o (addVote acc h) = some (tm.1 + 1, max tm.2 h.2) := by
          unfold addVote
          rw [ho, hacc]
          exact alGet_alSet_self o _ acc
        rw [haddv]
        dsimp only
        rw [List.length_cons, List.foldl_cons]
        simp only [Option.some.injEq, Prod.mk.injEq]
        exact ⟨by omega, trivial⟩
    · have hfil : (h :: rest).filter (fun p => p.1 = o)
          = rest.filter (fun p => p.1 = o) := by
        rw [List.filter_cons, if_neg (by simpa using ho)]
      rw [hfil]
      have haddv : alGet o (addVote acc h) = alGet o acc := by
        unfold addVote
        cases hh : alGet h.1 acc with
        | none =>
          rw [alGet_append]
          cases hacc : alGet o acc with
          | none => simp [alGet, fun hc : h.1 = o => ho hc, Ne.symm (fun hc : h.1 = o => ho hc)]
          | some tm => rfl
        | some tm => exact alGet_alSet_ne h.1 o _ acc (fun hc => ho hc.symm)
      rw [haddv]

theorem find_loop_eq (dict450 : List (Nat × List (Nat × DictEntry))) :
    ∀ (l : List (Nat × AudioFile)) (results : List (Int × (Nat × Nat))),
    (∀ p ∈ l, (alGet p.1 dict450).isSome = true) →
    find_loop dict450 l results = some ((all_hits dict450 l).foldl addVote results) := by
  intro l
  induction l with
  | nil => intro results _; rfl
  | cons q rest ih =>
    intro results hsome
    obtain ⟨num, track⟩ := q
    obtain ⟨tcs, htcs⟩ := Option.isSome_iff_exists.mp (hsome (num, track) (by simp))
    dsimp only at htcs
    simp only [find_loop]
    rw [htcs]
    dsimp only
    rw [ih _ (fun p hp => hsome p (by simp [hp]))]
    simp only [all_hits, htcs, Option.getD_some, List.foldl_append]
    rw [offset_track_votes_eq]

/-- Keys inserted by a fold of `alSet` stay present. -/
theorem fold_alSet_key_mem {γ : Type} (key : γ → Nat) (val : γ → DictEntry) (l : List γ) :
    ∀ x ∈ l, key x ∈ alKeys (l.foldl (fun inner q => alSet (key q) (val q) inner) []) := by
  induction l using List.reverseRecOn with
  | nil => simp
  | append_singleton l q ih =>
    intro x hx
    rw [List.foldl_append, List.foldl_cons, List.foldl_nil]
    have hpres : ∀ k (inner : List (Nat × DictEntry)), k ∈ alKeys inner →
        k ∈ alKeys (alSet (key q) (val q) inner) := by
      intro k inner hk
      rw [alKeys_alSet]
      by_cases hmem : key q ∈ alKeys inner
      · rwa [if_pos hmem]
      · rw [if_neg hmem]
        exact List.mem_append_left _ hk
    rcases List.mem_append.mp hx with hx | hx
    · exact hpres _ _ (ih x hx)
    · rw [List.mem_singleton] at hx
      subst hx
      rw [← alGet_isSome_iff_mem, alGet_alSet_self]
      rfl

theorem mem_enumFrom_of_mem {α : Type} (x : α) :
    ∀ (l : List α) (n : Nat), x ∈ l → ∃ k, (k, x) ∈ List.enumFrom n l := by
  intro l
  induction l with
  | nil => intro n h; simp at h
  | cons a t ih =>
    intro n h
    rcases List.mem_cons.mp h with h | h
    · exact ⟨n, by rw [h]; simp⟩
    · obtain ⟨k, hk⟩ := ih (n + 1) h
      exact ⟨k, by simp [hk]⟩

theorem make_dict_frame450_some (d : AccurateRipDisc) (hned : d.responses ≠ [])
    (h0 : 0 < disc_num_tracks d)
    (htrks : ∀ r ∈ d.responses, disc_num_tracks d ≤ r.tracks.length) :
    make_dict_frame450 d = some (alSet (disc_num_tracks d + 1) []
      ((List.range (disc_num_tracks d)).foldl
        (fun data trk => alSet (trk + 1) (make_dict_frame450_inner d trk) data) [])) := by
  obtain ⟨r0, rest, hresp⟩ : ∃ r0 rest, d.responses = r0 :: rest := by
    cases h : d.responses with
    | nil => exact absurd h hned
    | cons a b => exact ⟨a, b, rfl⟩
  have hdn : disc_num_tracks d = r0.header.num_tracks := by
    unfold disc_num_tracks
    rw [hresp]
  unfold make_dict_frame450
  rw [hresp]
  dsimp only
  rw [if_neg (by omega), if_pos, hdn]
  intro r hr
  rw [← hdn]
  exact htrks r (by rw [hresp]; exact hr)

/-- The key list of both lookup-table shapes: `1 .. N` plus `N + 1`. -/
theorem dict_keys_shape {β : Type} (g : Nat → β) (v : β) (N : Nat) :
    alKeys (alSet (N + 1) v
      ((List.range N).foldl (fun data trk => alSet (trk + 1) (g trk) data) []))
      = (List.range N).map (fun i => i + 1) ++ [N + 1] := by
  rw [fold_alSet_range, alSet_fresh]
  · rw [alKeys, List.map_append]
    simp [alKeys, List.map_map, Function.comp]
  · intro hc
    simp only [alKeys, List.map_map, List.mem_map, List.mem_range, Function.comp] at hc
    obtain ⟨i, hi, hieq⟩ := hc
    omega

theorem dict_keys_shape_mem {β : Type} (g : Nat → β) (v : β) (N i : Nat) :
    i ∈ alKeys (alSet (N + 1) v
      ((List.range N).foldl (fun data trk => alSet (trk + 1) (g trk) data) []))
      ↔ 1 ≤ i ∧ i ≤ N + 1 := by
  rw [dict_keys_shape]
  simp only [List.mem_append, List.mem_map, List.mem_range, List.mem_singleton]
  constructor
  · rintro (⟨j, hj, rfl⟩ | rfl) <;> omega
  · rintro ⟨h1, h2⟩
    by_cases hEnd : i = N + 1
    · exact Or.inr hEnd
    · exact Or.inl ⟨i - 1, by omega, by omega⟩

theorem mem_enumFrom_bounds {α : Type} (p : Nat × α) :
    ∀ (l : List α) (n : Nat), p ∈ List.enumFrom n l → n ≤ p.1 ∧ p.1 < n + l.length := by
  intro l
  induction l with
  | nil => intro n h; simp at h
  | cons a t ih =>
    intro n h
    rcases List.mem_cons.mp h with h | h
    · rw [h]
      simp
    · have := ih (n + 1) h
      simp only [List.length_cons]
      omega

/-- Claim C7: offset detection considers every frame-450 checksum
recorded for a track across all responses — entries with confidence 0
are kept as keys of the (spec-modelled) `frame450=True` lookup table —
and, skipping zero checksums, each hit in a track's inverted local
frame-window table contributes one vote, aggregated across all tracks
into `offset → (voteCount, maxConfidenceSeen)`. -/
theorem C7_offset_detection (disc : DiscInfo) (rip : Rip) (d : AccurateRipDisc)
    (hdata : disc.accuraterip_data = some d)
    (hned : d.responses ≠ [])
    (h0 : 0 < disc_num_tracks d)
    (htrks : ∀ r ∈ d.responses, disc_num_tracks d ≤ r.tracks.length)
    (hcount : rip.tracks.length ≤ disc_num_tracks d) :
    (∀ r ∈ d.responses, ∀ trk : Nat,
      (r.tracks.getD trk default).checksum_450
        ∈ alKeys (make_dict_frame450_inner d trk))
    ∧ ∃ dict450 res, make_dict_frame450 d = some dict450
        ∧ find_pressing_offset disc rip = some res
        ∧ ∀ o : Int, alGet o res
            = (if ((all_hits dict450 (List.enumFrom 1 rip.tracks)).filter
                  (fun p => p.1 = o)).length = 0 then none
               else some (((all_hits dict450 (List.enumFrom 1 rip.tracks)).filter
                    (fun p => p.1 = o)).length,
                  ((all_hits dict450 (List.enumFrom 1 rip.tracks)).filter
                    (fun p => p.1 = o)).foldl (fun a p => max a p.2) 0)) := by
  constructor
  · intro r hr trk
    obtain ⟨k, hk⟩ := mem_enumFrom_of_mem r d.responses 1 hr
    exact fold_alSet_key_mem
      (fun p : Nat × Response => (p.2.tracks.getD trk default).checksum_450)
      (fun p : Nat × Response => ⟨(p.2.tracks.getD trk default).confidence, p.1⟩)
      (List.enumFrom 1 d.responses) (k, r) hk
  · have hdict450 := make_dict_frame450_some d hned h0 htrks
    have hsome : ∀ p ∈ List.enumFrom 1 rip.tracks,
        (alGet p.1 (alSet (disc_num_tracks d + 1) []
          ((List.range (disc_num_tracks d)).foldl
            (fun data trk => alSet (trk + 1) (make_dict_frame450_inner d trk) data) []))).isSome
          = true := by
      intro p hp
      have hb := mem_enumFrom_bounds p rip.tracks 1 hp
      rw [alGet_isSome_iff_mem, dict_keys_shape_mem]
      omega
    refine ⟨_, (all_hits (alSet (disc_num_tracks d + 1) []
        ((List.range (disc_num_tracks d)).foldl
          (fun data trk => alSet (trk + 1) (make_dict_frame450_inner d trk) data) []))
        (List.enumFrom 1 rip.tracks)).foldl addVote [], hdict450, ?_, ?_⟩
    · unfold find_pressing_offset
      rw [hdata]
      dsimp only
      rw [hdict450]
      dsimp only
      exact find_loop_eq _ (List.enumFrom 1 rip.tracks) [] hsome
    · intro o
      exact addVotes_lookup _ [] o

/-- Witness for C7: `C7_offset_detection` on a one-track rip whose
inverted frame-window table contains the database's frame-450 checksum
(42 at local offset +6) recorded with confidence 0 — the confidence-0
entry still produces the vote. -/
theorem C7_offset_detection_witness :
    (∀ r ∈ (AccurateRipDisc.mk [⟨⟨1, 1, 2, 3⟩, [⟨0, 10, 42⟩]⟩]).responses, ∀ trk : Nat,
      (r.tracks.getD trk default).checksum_450
        ∈ alKeys (make_dict_frame450_inner ⟨[⟨⟨1, 1, 2, 3⟩, [⟨0, 10, 42⟩]⟩]⟩ trk))
    ∧ ∃ dict450 res, make_dict_frame450 ⟨[⟨⟨1, 1, 2, 3⟩, [⟨0, 10, 42⟩]⟩]⟩ = some dict450
        ∧ find_pressing_offset
            ⟨none, [⟨1, 150, 0, "audio"⟩], 150, DiscType.AUDIO,
              some ⟨[⟨⟨1, 1, 2, 3⟩, [⟨0, 10, 42⟩]⟩]⟩⟩
            ⟨[⟨"track01.wav", [], [(42, 6)]⟩]⟩ = some res
        ∧ ∀ o : Int, alGet o res
            = (if ((all_hits dict450
                    (List.enumFrom 1 (Rip.mk [⟨"track01.wav", [], [(42, 6)]⟩]).tracks)).filter
                  (fun p => p.1 = o)).length = 0 then none
               else some (((all_hits dict450
                      (List.enumFrom 1 (Rip.mk [⟨"track01.wav", [], [(42, 6)]⟩]).tracks)).filter
                    (fun p => p.1 = o)).length,
                  ((all_hits dict450
                      (List.enumFrom 1 (Rip.mk [⟨"track01.wav", [], [(42, 6)]⟩]).tracks)).filter
                    (fun p => p.1 = o)).foldl (fun a p => max a p.2) 0)) :=
  C7_offset_detection
    ⟨none, [⟨1, 150, 0, "audio"⟩], 150, DiscType.AUDIO,
      some ⟨[⟨⟨1, 1, 2, 3⟩, [⟨0, 10, 42⟩]⟩]⟩⟩
    ⟨[⟨"track01.wav", [], [(42, 6)]⟩]⟩
    ⟨[⟨⟨1, 1, 2, 3⟩, [⟨0, 10, 42⟩]⟩]⟩
    rfl (by decide) (by decide) (by decide) (by decide)

end ARver
